import Mathlib

/-!
# Verification of the LZ4 block decompressor (`src/lib/lz4/lz4_decompress.c`)

A shallow embedding of `LZ4_decompress_generic` and its two public
instantiations `LZ4_decompress_safe` and `LZ4_decompress_fast`.

Modelling conventions:
* The output buffer is a total function `Int → Nat`; index `i` stands for the
  address `dst + i`.  Negative indices are the bytes preceding the output
  buffer (the 64 KiB dictionary of the fast mode).  A write at any index is
  possible, as in C; the safety theorems prove that no write outside
  `[0, outputSize)` ever happens.
* The compressed input is a total function `Nat → Nat`; reads truncate to
  8 bits (`% 256`), as C reads of `BYTE` do.  Cursors `ip`, `op` are
  dst- and src-relative offsets.  Pointer comparisons of the C code are
  translated to exact `Int` comparisons on offsets (addresses never wrap in
  the model; the C overflow detections `(uptrval)op + length < (uptrval)op`
  are therefore vacuously false and are noted where they occur).
* All `memcpy`/`memmove`/wildcopy calls of the source copy forward byte by
  byte in the model.  At every call site of the source the destination is
  at least 8 bytes (4 bytes for the two 4-byte copies of the overlap
  fix-up) past the source, or the source is the separate input buffer, so
  chunked `memcpy` and forward byte copying coincide.
* The wildcopies are do-while loops and write at least one full stride even
  when the requested length is zero; `wildChunks`/`wild32Chunks` reproduce
  this stride count.
* The `goto` targets of the C function (`safe_literal_copy`, `_copy_match`,
  `safe_match_copy`, the two loop heads) become program points (`Phase`); a
  fueled small-step interpreter `run` drives the machine.
-/

namespace LZ4

/-- A read of `BYTE` from the compressed input: truncate to 8 bits. -/
def readByte (src : Nat → Nat) (i : Nat) : Nat := src i % 256

/-- `LZ4_readLE16`: a 16-bit little-endian load from the input. -/
def readLE16 (src : Nat → Nat) (i : Nat) : Nat :=
  readByte src i + 256 * readByte src (i + 1)

/-- Pointwise update of the output memory. -/
def wr (mem : Int → Nat) (i : Int) (v : Nat) : Int → Nat :=
  fun j => if j = i then v else mem j

/-- Copy `n` bytes from the input (cursor `ip`) to the output (cursor `d`),
forward, byte by byte.  Input and output are distinct objects, so this is
both `memcpy` and `memmove` of the source for input→output copies. -/
def copyLit (src : Nat → Nat) : Nat → (Int → Nat) → Nat → Int → (Int → Nat)
  | 0, mem, _, _ => mem
  | n + 1, mem, ip, d => copyLit src n (wr mem d (readByte src ip)) (ip + 1) (d + 1)

/-- Copy `n` bytes inside the output, forward, byte by byte, source cursor
`s`, destination cursor `d`.  Each later byte reads the memory updated by
the earlier ones, exactly like the byte loops of the source; at the chunked
call sites the distance `d - s` is at least the chunk size, where this
coincides with chunked `memcpy`. -/
def copyOut : Nat → (Int → Nat) → Int → Int → (Int → Nat)
  | 0, mem, _, _ => mem
  | n + 1, mem, s, d => copyOut n (wr mem d (mem s)) (s + 1) (d + 1)

/-- Write `n` bytes of the snapshot pattern `pat` (a function of the byte
position `k`, starting at `k`) at destination `d`.  Used for the 8-byte
pattern buffer `v` of `LZ4_memcpy_using_offset`. -/
def writePat (pat : Nat → Nat) : Nat → (Int → Nat) → Nat → Int → (Int → Nat)
  | 0, mem, _, _ => mem
  | n + 1, mem, k, d => writePat pat n (wr mem d (pat k)) (k + 1) (d + 1)

/-- Number of 8-byte strides of the do-while wildcopy `LZ4_wildCopy8`
from destination `d` up to end `e` (at least one stride is always taken). -/
def wildChunks (d e : Int) : Nat :=
  if e ≤ d then 1 else ((e - d).toNat + 7) / 8

/-- Number of 32-byte strides of the do-while wildcopy `LZ4_wildCopy32`. -/
def wild32Chunks (d e : Int) : Nat :=
  if e ≤ d then 1 else ((e - d).toNat + 31) / 32

/-- Modelled from the spec: the overlap table `inc32table` of `lz4defs.h`
(the header is not part of `src/`); values from §9 of the spec:
`inc32 = [0,1,2,1,4,4,4,4]`. -/
def inc32table : Nat → Nat
  | 0 => 0
  | 1 => 1
  | 2 => 2
  | 3 => 1
  | _ => 4

/-- Modelled from the spec: the overlap table `dec64table` of `lz4defs.h`
(the header is not part of `src/`); values from §9 of the spec:
`dec64 = [0,0,0,-1,0,1,2,3]`. -/
def dec64table : Nat → Int
  | 3 => -1
  | 5 => 1
  | 6 => 2
  | 7 => 3
  | _ => 0

/-- Error kinds of the variable-length reader. -/
inductive VarErr
  | ok
  | initialErr
  | loopErr
deriving DecidableEq

/-- Modelled from the spec (§4.3): the accumulation loop of
`read_variable_length` of `lz4defs.h` (not part of `src/`).  Repeatedly
read one byte, add it to the running sum, stop at the first byte ≠ `0xFF`;
when `loopCheck` is set, fail as soon as the advanced cursor reaches the
limit `lencheck`.  The accumulator is an unbounded natural, so the
arithmetic-overflow signal of §4.3 never fires in the model.  Returns
`(sum, new cursor, error)`; `none` when the fuel runs out (only possible
without `loopCheck`, on an unbounded run of `0xFF`). -/
def readVarLoop (src : Nat → Nat) (lencheck : Int) (loopCheck : Bool) :
    Nat → Nat → Nat → Option (Nat × Nat × VarErr)
  | 0, _, _ => none
  | f + 1, ip, acc =>
    let s := readByte src ip
    let ip' := ip + 1
    let acc' := acc + s
    if loopCheck ∧ lencheck ≤ (ip' : Int) then some (acc', ip', VarErr.loopErr)
    else if s = 255 then readVarLoop src lencheck loopCheck f ip' acc'
    else some (acc', ip', VarErr.ok)

/-- Modelled from the spec (§4.3): `read_variable_length` of `lz4defs.h`.
When `initialCheck` is set and the cursor already reached `lencheck`, fail
distinctly (a short input before any byte is read) without moving the
cursor. -/
def readVarLen (src : Nat → Nat) (lencheck : Int) (loopCheck initialCheck : Bool)
    (fuel ip : Nat) : Option (Nat × Nat × VarErr) :=
  if initialCheck ∧ lencheck ≤ (ip : Int) then some (0, ip, VarErr.initialErr)
  else readVarLoop src lencheck loopCheck fuel ip 0

/-- The decoder state: input cursor, output cursor, output memory. -/
structure S where
  ip : Nat
  op : Nat
  mem : Int → Nat

/-- Program points of `LZ4_decompress_generic`: the fast-loop head, the
safe-loop head, and the three `goto` targets `safe_literal_copy` (carrying
the token and the decoded literal length), `_copy_match` (carrying the
match-length seed, the offset and the match cursor) and `safe_match_copy`
(carrying the full match length including MINMATCH). -/
inductive Phase
  | fastTop
  | safeTop
  | litCopy (token length : Nat)
  | copyMatch (mlen offset : Nat) (m : Int)
  | matchCopy (length offset : Nat) (m : Int)

/-- A finished or suspended decode: `ok ret s` and `err ret s` are the two
returns of the C function (line 630/633 and line 638), `out` is the
out-of-fuel case of the model. -/
inductive Res
  | ok (ret : Int) (s : S)
  | err (ret : Int) (s : S)
  | out (ph : Phase) (s : S)

/-- One small step: continue at a program point, or stop. -/
inductive Step
  | next (ph : Phase) (s : S)
  | halt (r : Res)

/-- The directive set plus the borrowed buffers, i.e. the parameters of
`LZ4_decompress_generic`.  `lowLimit` is the `lowPrefix` argument as a
dst-relative offset; `stopEarly` is the `partialDecoding` directive,
`dict64k` the `withPrefix64k` directive. -/
structure Params where
  src : Nat → Nat
  srcSize : Nat
  cap : Nat
  endOnInput : Bool
  stopEarly : Bool
  dict64k : Bool
  lowLimit : Int
  dictSize : Nat

/-- `checkOffset` (line 181): safe decoding with a dictionary smaller than
64 KiB. -/
def checkOffset (p : Params) : Bool :=
  p.endOnInput && decide (p.dictSize < 65536)

/-- `shortiend` (line 184): `iend - (endOnInput ? 14 : 8) - 2`. -/
def shortiend (p : Params) : Int :=
  (p.srcSize : Int) - (if p.endOnInput then 14 else 8) - 2

/-- `shortoend` (line 186): `oend - (endOnInput ? 14 : 8) - 18`. -/
def shortoend (p : Params) : Int :=
  (p.cap : Int) - (if p.endOnInput then 14 else 8) - 18

/-- `goto _output_error` (line 638): return `-(ip - src) - 1` with the
current cursor. -/
def errAt (s : S) : Step :=
  Step.halt (Res.err (-(s.ip : Int) - 1) s)

/-- Entry condition of the two-stage shortcut of the safe loop
(lines 381–387): literal seed below `RUN_MASK` (at most 8 in fast mode),
input cursor strictly below `shortiend` (only checked in safe mode), output
cursor at most `shortoend`.  `ip1` is the cursor after the token byte. -/
def shortcutCond (p : Params) (length ip1 op : Nat) : Bool :=
  (if p.endOnInput then length ≠ 15 else length ≤ 8) &&
    ((!p.endOnInput || decide ((ip1 : Int) < shortiend p)) &&
      decide ((op : Int) ≤ shortoend p))

/-- The shortcut body (lines 388–422): copy 16 literal bytes (8 in fast
mode) unconditionally, advance by the literal seed, decode offset and
match-length seed; complete the match in place via an 18-byte copy when the
match is regular, otherwise hand the decoded info to `_copy_match`. -/
def shortcutStep (p : Params) (s : S) (token length : Nat) : Step :=
  let ip1 := s.ip + 1
  let mem1 := copyLit p.src (if p.endOnInput then 16 else 8) s.mem ip1 (s.op : Int)
  let op1 := s.op + length
  let ip2 := ip1 + length
  let mlen := token % 16
  let offset := readLE16 p.src ip2
  let ip3 := ip2 + 2
  let m : Int := (op1 : Int) - (offset : Int)
  if mlen ≠ 15 ∧ 8 ≤ offset ∧ (p.dict64k = true ∨ p.lowLimit ≤ m) then
    Step.next Phase.safeTop ⟨ip3, op1 + mlen + 4, copyOut 18 mem1 m (op1 : Int)⟩
  else
    Step.next (Phase.copyMatch mlen offset m) ⟨ip3, op1, mem1⟩

/-- The head of the safe loop (lines 359–448): read the token, try the
shortcut, else decode the literal length and fall to the literal copy. -/
def safeTopStep (p : Params) (fuel : Nat) (s : S) : Step :=
  let token := readByte p.src s.ip
  let ip1 := s.ip + 1
  let length := token / 16
  if shortcutCond p length ip1 s.op then
    shortcutStep p s token length
  else if length = 15 then
    match readVarLen p.src ((p.srcSize : Int) - 15) p.endOnInput p.endOnInput fuel ip1 with
    | none => Step.halt (Res.out Phase.safeTop s)
    | some (ext, ip', e) =>
      -- only `initial_error` aborts here (line 433); a partial sum from a
      -- truncated extension is used as is, the copy checks catch it later.
      -- The two overflow detections (lines 436–447) are vacuous over ℕ.
      if e = VarErr.initialErr then errAt ⟨ip', s.op, s.mem⟩
      else Step.next (Phase.litCopy token (15 + ext)) ⟨ip', s.op, s.mem⟩
  else
    Step.next (Phase.litCopy token length) ⟨ip1, s.op, s.mem⟩

/-- After a literal copy of the safe loop that does not end the block:
read the offset (lines 522–528) and proceed to `_copy_match`. -/
def afterLitCopy (p : Params) (token ip' op' : Nat) (mem' : Int → Nat) : Step :=
  let offset := readLE16 p.src ip'
  let m : Int := (op' : Int) - (offset : Int)
  Step.next (Phase.copyMatch (token % 16) offset m) ⟨ip' + 2, op', mem'⟩

/-- `safe_literal_copy` (lines 451–520): the bounded end-of-block copy with
its partial-mode clamping and full-mode exactness checks, or the 8-byte
wildcopy of a mid-block literal run. -/
def litCopyStep (p : Params) (s : S) (token length : Nat) : Step :=
  let cpy := s.op + length
  if (p.endOnInput && (decide (((p.cap : Int) - 12) < (cpy : Int)) ||
        decide (((p.srcSize : Int) - 8) < ((s.ip : Int) + (length : Int))))) ||
     (!p.endOnInput && decide (((p.cap : Int) - 8) < (cpy : Int))) then
    if p.stopEarly then
      -- partial decoding: clamp to the end of the output (lines 461–469)
      let len2 := if (p.cap : Int) < (cpy : Int) then p.cap - s.op else length
      let cpy2 : Int := if (p.cap : Int) < (cpy : Int) then (p.cap : Int) else (cpy : Int)
      if p.endOnInput ∧ (p.srcSize : Int) < (s.ip : Int) + (len2 : Int) then errAt s
      else
        let mem' := copyLit p.src len2 s.mem s.ip (s.op : Int)
        let ip' := s.ip + len2
        let op' := s.op + len2
        if cpy2 = (p.cap : Int) ∨ (p.srcSize : Int) - 2 ≤ (ip' : Int) then
          Step.halt (Res.ok (if p.endOnInput then (op' : Int) else (ip' : Int)) ⟨ip', op', mem'⟩)
        else afterLitCopy p token ip' op' mem'
    else
      -- full decoding: the block must stop exactly here (lines 479–498)
      if (!p.endOnInput && decide ((cpy : Int) ≠ (p.cap : Int))) ||
         (p.endOnInput && (decide (((s.ip : Int) + (length : Int)) ≠ (p.srcSize : Int)) ||
            decide ((p.cap : Int) < (cpy : Int)))) then errAt s
      else
        let mem' := copyLit p.src length s.mem s.ip (s.op : Int)
        Step.halt (Res.ok (if p.endOnInput then ((s.op + length : Nat) : Int)
          else ((s.ip + length : Nat) : Int)) ⟨s.ip + length, s.op + length, mem'⟩)
  else
    -- mid-block: wildcopy by 8 (may write up to 7 bytes past cpy), line 517
    let mem' := copyLit p.src (8 * wildChunks (s.op : Int) (cpy : Int)) s.mem s.ip (s.op : Int)
    afterLitCopy p token (s.ip + length) cpy mem'

/-- The part of `_copy_match` after the offset range check (lines 536–553):
extend the match length and add MINMATCH. -/
def copyMatchCont (p : Params) (fuel : Nat) (s : S) (mlen offset : Nat) (m : Int) : Step :=
  if mlen = 15 then
    match readVarLen p.src ((p.srcSize : Int) - 4) p.endOnInput false fuel s.ip with
    | none => Step.halt (Res.out (Phase.copyMatch mlen offset m) s)
    | some (ext, ip', e) =>
      -- any error aborts here (line 542); the overflow detection
      -- (lines 545–550) is vacuous over ℕ.
      if e ≠ VarErr.ok then errAt ⟨ip', s.op, s.mem⟩
      else Step.next (Phase.matchCopy (15 + ext + 4) offset m) ⟨ip', s.op, s.mem⟩
  else Step.next (Phase.matchCopy (mlen + 4) offset m) s

/-- `_copy_match` (lines 530–553): the offset range check, then the match
length decoding. -/
def copyMatchStep (p : Params) (fuel : Nat) (s : S) (mlen offset : Nat) (m : Int) : Step :=
  if checkOffset p = true ∧ m + (p.dictSize : Int) < p.lowLimit then errAt s
  else copyMatchCont p fuel s mlen offset m

/-- `safe_match_copy` (lines 556–624): the partial-mode clamped byte copy,
or the overlap fix-up plus wildcopy match expansion with the end-of-block
guards. -/
def matchCopyStep (p : Params) (s : S) (length offset : Nat) (m : Int) : Step :=
  let cpy := s.op + length
  if p.stopEarly ∧ ((p.cap : Int) - 12) < (cpy : Int) then
    -- partial decoding near the end of the output (lines 567–584); the
    -- overlap byte loop and the memcpy branch both copy forward here
    let mlen := min length (p.cap - s.op)
    let mem' := copyOut mlen s.mem m (s.op : Int)
    let op' := s.op + mlen
    if op' = p.cap then
      Step.halt (Res.ok (if p.endOnInput then (op' : Int) else (s.ip : Int)) ⟨s.ip, op', mem'⟩)
    else Step.next Phase.safeTop ⟨s.ip, op', mem'⟩
  else
    -- first 8 bytes with the overlap fix-up (lines 586–599)
    let fix := if offset < 8 then
        let mem1 := copyOut 4 s.mem m (s.op : Int)
        let m1 := m + (inc32table offset : Int)
        (copyOut 4 mem1 m1 ((s.op : Int) + 4), m1 - dec64table offset)
      else (copyOut 8 s.mem m (s.op : Int), m + 8)
    let mem2 := fix.1
    let m2 := fix.2
    let op8 := s.op + 8
    if ((p.cap : Int) - 12) < (cpy : Int) then
      if ((p.cap : Int) - 5) < (cpy : Int) then errAt ⟨s.ip, op8, mem2⟩
      else
        -- finish against oCopyLimit = oend - 7 (lines 601–618)
        let oCopyLimit : Int := (p.cap : Int) - 7
        let mem3 := if (op8 : Int) < oCopyLimit then
            copyOut (8 * wildChunks (op8 : Int) oCopyLimit) mem2 m2 (op8 : Int) else mem2
        let m3 := if (op8 : Int) < oCopyLimit then m2 + (oCopyLimit - (op8 : Int)) else m2
        let opA : Int := if (op8 : Int) < oCopyLimit then oCopyLimit else (op8 : Int)
        let mem4 := copyOut ((cpy : Int) - opA).toNat mem3 m3 opA
        Step.next Phase.safeTop ⟨s.ip, cpy, mem4⟩
    else
      -- regular tail: 8 more bytes, then wildcopy when length > 16
      -- (lines 619–624)
      let mem3 := copyOut 8 mem2 m2 (op8 : Int)
      let mem4 := if 16 < length then
          copyOut (8 * wildChunks ((op8 : Int) + 8) (cpy : Int)) mem3 (m2 + 8) ((op8 : Int) + 8)
        else mem3
      Step.next Phase.safeTop ⟨s.ip, cpy, mem4⟩

/-- The pattern of the 8-byte buffer `v` of `LZ4_memcpy_using_offset`
(lines 113–131), as a function of the byte position. -/
def patFor (mem : Int → Nat) (m : Int) (off : Nat) : Nat → Nat :=
  fun j => mem (m + ((j % off : Nat) : Int))

/-- `LZ4_memcpy_using_offset` (lines 109–140): the pattern strides for
offsets 1, 2, 4, else `LZ4_memcpy_using_offset_base` (lines 68–89). -/
def LZ4_memcpy_using_offset (mem : Int → Nat) (m d e : Int) (offset : Nat) : Int → Nat :=
  if offset = 1 ∨ offset = 2 ∨ offset = 4 then
    writePat (patFor mem m offset) (8 * wildChunks d e) mem 0 d
  else if offset < 8 then
    let mem1 := copyOut 4 mem m d
    let m1 := m + (inc32table offset : Int)
    let mem2 := copyOut 4 mem1 m1 (d + 4)
    let m2 := m1 - dec64table offset
    copyOut (8 * wildChunks (d + 8) e) mem2 m2 (d + 8)
  else
    let mem1 := copyOut 8 mem m d
    copyOut (8 * wildChunks (d + 8) e) mem1 (m + 8) (d + 8)

/-- The match copy inside the fast loop (lines 344–354). -/
def fastMatchCopy (_p : Params) (s : S) (len offset : Nat) (m : Int) : Step :=
  let cpy := s.op + len
  let mem2 := if offset < 16 then LZ4_memcpy_using_offset s.mem m (s.op : Int) (cpy : Int) offset
    else copyOut (32 * wild32Chunks (s.op : Int) (cpy : Int)) s.mem m (s.op : Int)
  Step.next Phase.fastTop ⟨s.ip, cpy, mem2⟩

/-- The offset/match part of the fast loop (lines 298–342): offset read,
range check, match length decoding with the `safe_match_copy` bail-outs,
and the 18-byte regular-match fast path. -/
def fastMatchPart (p : Params) (fuel token ip' op' : Nat) (mem' : Int → Nat) : Step :=
  let offset := readLE16 p.src ip'
  let ip2 := ip' + 2
  let m : Int := (op' : Int) - (offset : Int)
  let mlen := token % 16
  if checkOffset p = true ∧ m + (p.dictSize : Int) < p.lowLimit then errAt ⟨ip2, op', mem'⟩
  else if mlen = 15 then
    match readVarLen p.src ((p.srcSize : Int) - 4) p.endOnInput false fuel ip2 with
    | none => Step.halt (Res.out Phase.fastTop ⟨ip2, op', mem'⟩)
    | some (ext, ip3, e) =>
      if e ≠ VarErr.ok then errAt ⟨ip3, op', mem'⟩
      else
        let len := 15 + ext + 4
        if (p.cap : Int) - 64 ≤ (op' : Int) + (len : Int) then
          Step.next (Phase.matchCopy len offset m) ⟨ip3, op', mem'⟩
        else fastMatchCopy p ⟨ip3, op', mem'⟩ len offset m
  else
    let len := mlen + 4
    if (p.cap : Int) - 64 ≤ (op' : Int) + (len : Int) then
      Step.next (Phase.matchCopy len offset m) ⟨ip2, op', mem'⟩
    else if p.lowLimit ≤ m ∧ 8 ≤ offset then
      -- regular match: two 8-byte copies plus 2 bytes (lines 333–340)
      Step.next Phase.fastTop ⟨ip2, op' + len, copyOut 18 mem' m (op' : Int)⟩
    else fastMatchCopy p ⟨ip2, op', mem'⟩ len offset m

/-- The head of the fast loop (lines 218–296): token, literal length,
wide literal copy with the `safe_literal_copy` bail-outs. -/
def fastTopStep (p : Params) (fuel : Nat) (s : S) : Step :=
  let token := readByte p.src s.ip
  let ip1 := s.ip + 1
  let ll := token / 16
  if ll = 15 then
    match readVarLen p.src ((p.srcSize : Int) - 15) p.endOnInput p.endOnInput fuel ip1 with
    | none => Step.halt (Res.out Phase.fastTop s)
    | some (ext, ip', e) =>
      if e = VarErr.initialErr then errAt ⟨ip', s.op, s.mem⟩
      else
        let len := 15 + ext
        let cpy := s.op + len
        if p.endOnInput then
          if (p.cap : Int) - 32 < (cpy : Int) ∨
             (p.srcSize : Int) - 32 < (ip' : Int) + (len : Int) then
            Step.next (Phase.litCopy token len) ⟨ip', s.op, s.mem⟩
          else
            let mem' := copyLit p.src (32 * wild32Chunks (s.op : Int) (cpy : Int)) s.mem ip' (s.op : Int)
            fastMatchPart p fuel token (ip' + len) cpy mem'
        else
          if (p.cap : Int) - 8 < (cpy : Int) then
            Step.next (Phase.litCopy token len) ⟨ip', s.op, s.mem⟩
          else
            let mem' := copyLit p.src (8 * wildChunks (s.op : Int) (cpy : Int)) s.mem ip' (s.op : Int)
            fastMatchPart p fuel token (ip' + len) cpy mem'
  else
    let cpy := s.op + ll
    if p.endOnInput then
      if (p.srcSize : Int) - 17 < (ip1 : Int) then
        Step.next (Phase.litCopy token ll) ⟨ip1, s.op, s.mem⟩
      else
        let mem' := copyLit p.src 16 s.mem ip1 (s.op : Int)
        fastMatchPart p fuel token (ip1 + ll) cpy mem'
    else
      let mem1 := copyLit p.src 8 s.mem ip1 (s.op : Int)
      let mem' := if 8 < ll then copyLit p.src 8 mem1 (ip1 + 8) ((s.op : Int) + 8) else mem1
      fastMatchPart p fuel token (ip1 + ll) cpy mem'

/-- Dispatch one step at a program point. -/
def stepPhase (p : Params) (fuel : Nat) : Phase → S → Step
  | Phase.fastTop, s => fastTopStep p fuel s
  | Phase.safeTop, s => safeTopStep p fuel s
  | Phase.litCopy t l, s => litCopyStep p s t l
  | Phase.copyMatch ml off m, s => copyMatchStep p fuel s ml off m
  | Phase.matchCopy l off m, s => matchCopyStep p s l off m

/-- The fueled small-step interpreter. -/
def run (p : Params) : Nat → Phase → S → Res
  | 0, ph, s => Res.out ph s
  | n + 1, ph, s =>
    match stepPhase p n ph s with
    | Step.next ph' s' => run p n ph' s'
    | Step.halt r => r

/-- `LZ4_decompress_generic` (lines 150–639): the empty-buffer special
cases (lines 202–209), the fast-loop entry guard (line 212), then the
loops. -/
def LZ4_decompress_generic (p : Params) (mem0 : Int → Nat) (fuel : Nat) : Res :=
  let s0 : S := ⟨0, 0, mem0⟩
  if p.endOnInput = true ∧ p.cap = 0 then
    if p.srcSize = 1 ∧ readByte p.src 0 = 0 then Res.ok 0 s0 else Res.err (-1) s0
  else if p.endOnInput = false ∧ p.cap = 0 then
    if readByte p.src 0 = 0 then Res.ok 1 s0 else Res.err (-1) s0
  else if p.endOnInput = true ∧ p.srcSize = 0 then Res.err (-1) s0
  else if p.cap < 64 then run p fuel Phase.safeTop s0
  else run p fuel Phase.fastTop s0

/-- The directive set of `LZ4_decompress_safe` (lines 641–648):
`endOnInputSize, decode_full_block, noDict, lowPrefix = dest`. -/
def safeParams (src : Nat → Nat) (srcSize cap : Nat) : Params :=
  ⟨src, srcSize, cap, true, false, false, 0, 0⟩

/-- `LZ4_decompress_safe` (lines 641–648). -/
def LZ4_decompress_safe (src : Nat → Nat) (srcSize cap : Nat) (mem0 : Int → Nat) (fuel : Nat) : Res :=
  LZ4_decompress_generic (safeParams src srcSize cap) mem0 fuel

/-- The directive set of `LZ4_decompress_fast` (lines 650–656):
`srcSize = 0, endOnOutputSize, decode_full_block, withPrefix64k,
lowPrefix = dest - 64 KiB, dictSize = 0`. -/
def fastParams (src : Nat → Nat) (originalSize : Nat) : Params :=
  ⟨src, 0, originalSize, false, false, true, -65536, 0⟩

/-- `LZ4_decompress_fast` (lines 650–656). -/
def LZ4_decompress_fast (src : Nat → Nat) (originalSize : Nat) (mem0 : Int → Nat) (fuel : Nat) : Res :=
  LZ4_decompress_generic (fastParams src originalSize) mem0 fuel

/-- Modelled from the spec (§4.6): the directive set of
`LZ4_decompress_safe_partial` — `{Input, Partial, None, check_offset=true}`,
`lowPrefix = output_start` (the entry point itself is not in `src/`, only
the generic routine it instantiates). -/
def partParams (src : Nat → Nat) (srcSize cap : Nat) : Params :=
  ⟨src, srcSize, cap, true, true, false, 0, 0⟩

/-- The output memory of a result, whichever way the decode ended. -/
def Res.memOf : Res → (Int → Nat)
  | Res.ok _ s => s.mem
  | Res.err _ s => s.mem
  | Res.out _ s => s.mem

/-- The output memory after one step. -/
def Step.memOf : Step → (Int → Nat)
  | Step.next _ s => s.mem
  | Step.halt r => r.memOf

/-- Whether a step continues (rather than halting). -/
def Step.isNextB : Step → Bool
  | Step.next _ _ => true
  | Step.halt _ => false

/-- The return value of a step that halts with success. -/
def Step.retOk? : Step → Option Int
  | Step.halt (Res.ok r _) => some r
  | _ => none

/-- The two cursors of a step that halts with success. -/
def Step.okCursors? : Step → Option (Nat × Nat)
  | Step.halt (Res.ok _ s) => some (s.ip, s.op)
  | _ => none

/-!
## Memory framing

`memSame cap m₁ m₂` says the two memories agree outside the output region
`[0, cap)`; every copy primitive preserves it when its writes land inside
the region.
-/

/-- Agreement of two output memories outside `[0, cap)`. -/
def memSame (cap : Nat) (m1 m2 : Int → Nat) : Prop :=
  ∀ j : Int, j < 0 ∨ (cap : Int) ≤ j → m1 j = m2 j

/-!
## The safe-decoding invariant

For `endOnInput` instantiations: the output cursor never exceeds the
capacity; at the fast-loop head there are at least 64 spare bytes (the
loop's own entry and continuation guards); at a match copy of a full-mode
decode there are at least 8 spare bytes (the literal-copy and shortcut
guards), and the match length includes MINMATCH.
-/

def phInv (p : Params) : Phase → S → Prop
  | Phase.fastTop, s => (s.op : Int) + 64 ≤ (p.cap : Int)
  | Phase.safeTop, s => s.op ≤ p.cap
  | Phase.litCopy _ _, s => s.op ≤ p.cap
  | Phase.copyMatch _ _ _, s =>
      s.op ≤ p.cap ∧ (p.stopEarly = false → (s.op : Int) + 8 ≤ (p.cap : Int))
  | Phase.matchCopy len _ _, s =>
      s.op ≤ p.cap ∧ 4 ≤ len ∧ (p.stopEarly = false → (s.op : Int) + 8 ≤ (p.cap : Int))

/-- What one step of a safe (`endOnInput`) decode guarantees: the invariant
moves along, no write lands outside `[0, cap)`, a success return carries
the output cursor (the byte count) with its bound and, in full mode, a
fully consumed input, and an error return is `-(ip) - 1`. -/
def stepOK (p : Params) (s : S) : Step → Prop
  | Step.next ph' s' => phInv p ph' s' ∧ memSame p.cap s'.mem s.mem
  | Step.halt (Res.ok r s') => r = (s'.op : Int) ∧ s'.op ≤ p.cap ∧
      (p.stopEarly = false → s'.ip = p.srcSize) ∧ memSame p.cap s'.mem s.mem
  | Step.halt (Res.err r s') => r = -(s'.ip : Int) - 1 ∧ memSame p.cap s'.mem s.mem
  | Step.halt (Res.out _ s') => memSame p.cap s'.mem s.mem

/-- What a whole safe (`endOnInput`) decode guarantees relative to the
memory `mem0` it started from. -/
def resOK (p : Params) (mem0 : Int → Nat) : Res → Prop
  | Res.ok r s' => r = (s'.op : Int) ∧ s'.op ≤ p.cap ∧
      (p.stopEarly = false → s'.ip = p.srcSize) ∧ memSame p.cap s'.mem mem0
  | Res.err r s' => r = -(s'.ip : Int) - 1 ∧ memSame p.cap s'.mem mem0
  | Res.out _ s' => memSame p.cap s'.mem mem0

/-- What a fast-mode (`endOnOutputSize`, full-block) success return looks
like: the number of input bytes read, with the output filled exactly. -/
def fastOkP (p : Params) : Step → Prop
  | Step.halt (Res.ok r s') => r = (s'.ip : Int) ∧ s'.op = p.cap
  | _ => True

/-- The return value of a finished decode (0 for a suspended one). -/
def Res.retOf : Res → Int
  | Res.ok r _ => r
  | Res.err r _ => r
  | Res.out _ _ => 0

/-- Whether a decode finished with success. -/
def Res.isOkB : Res → Bool
  | Res.ok _ _ => true
  | _ => false

/-- A small observable of a step: which program point it continues at
(5 = halt). -/
def Step.tag : Step → Nat
  | Step.next Phase.fastTop _ => 0
  | Step.next Phase.safeTop _ => 1
  | Step.next (Phase.litCopy _ _) _ => 2
  | Step.next (Phase.copyMatch _ _ _) _ => 3
  | Step.next (Phase.matchCopy _ _ _) _ => 4
  | Step.halt _ => 5

/-- The cursors a continuing step hands to the next program point. -/
def Step.cursorsOf : Step → Option (Nat × Nat)
  | Step.next _ s => some (s.ip, s.op)
  | Step.halt _ => none

/-- The concrete input of the C5 counterexample: one sequence with a
1-byte literal and a match whose 16-bit offset field is `00 00`, then the
closing literal run. -/
def c5src : Nat → Nat := fun i =>
  [0x14, 0x41, 0x00, 0x00, 0x50, 0x42, 0x43, 0x44, 0x45, 0x46].getD i 0

/-- C10: the concrete parameters of the witness. -/
def c10src : Nat → Nat := fun i => [0x80, 1, 2, 3, 4, 5, 6, 7, 8, 9].getD i 0

/-- The "Hello" block of the C3 witness: token `0x50`, five literals. -/
def c3aSrc : Nat → Nat := fun i => [0x50, 72, 101, 108, 108, 111].getD i 0

/-- The final state of both C3 witness decodes. -/
def c3aS : S := ⟨6, 5, copyLit c3aSrc 5 (fun _ => 0) 1 0⟩

/-- The C6 counterexample input: token `0xF0` and extension byte `0x20`
encode a literal run of `15 + 32 = 47` bytes, but only 15 further input
bytes exist (17 in total). -/
def c6src : Nat → Nat := fun i =>
  [0xF0, 0x20, 1, 2, 3, 4, 5, 6, 7, 8, 9, 10, 11, 12, 13, 14, 15].getD i 0

/-- The clamped-copy witness input for C6 (10 bytes, capacity 3). -/
def c6wSrc : Nat → Nat := fun i => [0x50, 65, 66, 67, 68, 69, 70, 71, 72, 73].getD i 0

/-- The final state of the C6 whole-run witness (capacity 3, input 6). -/
def c6wS : S := ⟨4, 3, copyLit c6wSrc 3 (fun _ => 0) 1 0⟩

/-- Input of the C8 counterexample: token `0x11` (1 literal, match seed 1),
one literal byte, then offset `0x0005`; declared source size 18. -/
def c8src : Nat → Nat := fun i => [0x11, 0xAA, 0x05, 0x00].getD i 0

/-- Modelled from the spec: the entry condition C8 states for the shortcut,
`LL ≤ 14 && ip + 16 ≤ shortiend && op + 18 ≤ shortoend` (with `ip` the
cursor after the token byte). -/
def c8ClaimCond (p : Params) (ll ip1 op : Nat) : Bool :=
  decide (ll ≤ 14) && (decide ((ip1 : Int) + 16 ≤ shortiend p) &&
    decide ((op : Int) + 18 ≤ shortoend p))

/-- The condition under which the shortcut finishes the match inline
(line 397): regular match-length seed, offset at least 8, match pointer in
range (the last test short-circuited for the 64 KiB-prefix mode). -/
def shortcutInline (p : Params) (s : S) (token ll : Nat) : Prop :=
  token % 16 ≠ 15 ∧ 8 ≤ readLE16 p.src (s.ip + 1 + ll) ∧
    (p.dict64k = true ∨ p.lowLimit ≤ ((s.op + ll : Nat) : Int) -
      (readLE16 p.src (s.ip + 1 + ll) : Int))

instance shortcutInlineDec (p : Params) (s : S) (token ll : Nat) :
    Decidable (shortcutInline p s token ll) := by
  unfold shortcutInline
  exact inferInstance

theorem memSame_refl (cap : Nat) (m : Int → Nat) : memSame cap m m :=
  fun _ _ => rfl

theorem memSame_trans {cap : Nat} {m1 m2 m3 : Int → Nat}
    (h1 : memSame cap m1 m2) (h2 : memSame cap m2 m3) : memSame cap m1 m3 :=
  fun j hj => (h1 j hj).trans (h2 j hj)

theorem copyLit_outside (src : Nat → Nat) :
    ∀ (n : Nat) (mem : Int → Nat) (ip : Nat) (d j : Int),
      j < d ∨ d + (n : Int) ≤ j → copyLit src n mem ip d j = mem j := by
  intro n
  induction n with
  | zero => intro mem ip d j _; rfl
  | succ k ih =>
    intro mem ip d j hj
    show copyLit src k (wr mem d _) (ip + 1) (d + 1) j = mem j
    rw [ih _ _ _ _ (by push_cast at hj ⊢; omega)]
    unfold wr
    rw [if_neg (by omega)]

theorem copyOut_outside :
    ∀ (n : Nat) (mem : Int → Nat) (s d j : Int),
      j < d ∨ d + (n : Int) ≤ j → copyOut n mem s d j = mem j := by
  intro n
  induction n with
  | zero => intro mem s d j _; rfl
  | succ k ih =>
    intro mem s d j hj
    show copyOut k (wr mem d _) (s + 1) (d + 1) j = mem j
    rw [ih _ _ _ _ (by push_cast at hj ⊢; omega)]
    unfold wr
    rw [if_neg (by omega)]

theorem writePat_outside (pat : Nat → Nat) :
    ∀ (n : Nat) (mem : Int → Nat) (k : Nat) (d j : Int),
      j < d ∨ d + (n : Int) ≤ j → writePat pat n mem k d j = mem j := by
  intro n
  induction n with
  | zero => intro mem k d j _; rfl
  | succ c ih =>
    intro mem k d j hj
    show writePat pat c (wr mem d _) (k + 1) (d + 1) j = mem j
    rw [ih _ _ _ _ (by push_cast at hj ⊢; omega)]
    unfold wr
    rw [if_neg (by omega)]

theorem memSame_copyLit {cap : Nat} (src : Nat → Nat) (n : Nat) (mem : Int → Nat)
    (ip : Nat) (d : Int) (h0 : 0 ≤ d) (hn : d + (n : Int) ≤ (cap : Int)) :
    memSame cap (copyLit src n mem ip d) mem :=
  fun j hj => copyLit_outside src n mem ip d j (by omega)

theorem memSame_copyOut {cap : Nat} (n : Nat) (mem : Int → Nat) (s d : Int)
    (h0 : 0 ≤ d) (hn : d + (n : Int) ≤ (cap : Int)) :
    memSame cap (copyOut n mem s d) mem :=
  fun j hj => copyOut_outside n mem s d j (by omega)

theorem memSame_writePat {cap : Nat} (pat : Nat → Nat) (n : Nat) (mem : Int → Nat)
    (k : Nat) (d : Int) (h0 : 0 ≤ d) (hn : d + (n : Int) ≤ (cap : Int)) :
    memSame cap (writePat pat n mem k d) mem :=
  fun j hj => writePat_outside pat n mem k d j (by omega)

/-!
## Stride-count bounds for the wildcopies
-/

theorem wildChunks_le (d e : Int) :
    d + ((8 * wildChunks d e : Nat) : Int) ≤ max (d + 8) (e + 7) := by
  unfold wildChunks
  split
  · simp only [Nat.mul_one]
    exact le_max_of_le_left (by omega)
  · rename_i h
    refine le_max_of_le_right ?_
    have h1 : 8 * (((e - d).toNat + 7) / 8) ≤ (e - d).toNat + 7 := by
      calc 8 * (((e - d).toNat + 7) / 8) = (((e - d).toNat + 7) / 8) * 8 := by ring
        _ ≤ (e - d).toNat + 7 := Nat.div_mul_le_self _ _
    have h2 : ((e - d).toNat : Int) = e - d := Int.toNat_of_nonneg (by omega)
    omega

theorem le_wildChunks (d e : Int) (h : d < e) :
    e ≤ d + ((8 * wildChunks d e : Nat) : Int) := by
  unfold wildChunks
  rw [if_neg (by omega)]
  have h1 := Nat.div_add_mod ((e - d).toNat + 7) 8
  have h2 : ((e - d).toNat + 7) % 8 < 8 := Nat.mod_lt _ (by norm_num)
  have h3 : ((e - d).toNat : Int) = e - d := Int.toNat_of_nonneg (by omega)
  omega

theorem copyMatchStep_ok (p : Params) (s : S) (mlen offset : Nat) (m : Int) (fuel : Nat)
    (hop : s.op ≤ p.cap) (h8 : p.stopEarly = false → (s.op : Int) + 8 ≤ (p.cap : Int)) :
    stepOK p s (copyMatchStep p fuel s mlen offset m) := by
  unfold copyMatchStep copyMatchCont
  split
  · exact ⟨rfl, memSame_refl _ _⟩
  · split
    · split
      · exact memSame_refl _ _
      · split
        · exact ⟨rfl, memSame_refl _ _⟩
        · exact ⟨⟨hop, by omega, h8⟩, memSame_refl _ _⟩
    · exact ⟨⟨hop, by omega, h8⟩, memSame_refl _ _⟩

theorem litCopyStep_ok (p : Params) (hE : p.endOnInput = true) (s : S) (token length : Nat)
    (hop : s.op ≤ p.cap) : stepOK p s (litCopyStep p s token length) := by
  unfold litCopyStep afterLitCopy
  simp only [hE, Bool.true_and, Bool.not_true, Bool.false_and, Bool.false_or, Bool.or_false,
    Bool.or_eq_true, decide_eq_true_eq, eq_self_iff_true, true_and, if_true]
  split
  · rename_i hb
    split
    · rename_i hSE
      have hNS : ∀ (P : Prop), p.stopEarly = false → P := by
        intro P h; rw [h] at hSE; cases hSE
      split
      · -- clamp taken
        rename_i hclamp
        split
        · exact ⟨rfl, memSame_refl _ _⟩
        · have h1 : s.op + (p.cap - s.op) ≤ p.cap := by omega
          have h3 : memSame p.cap (copyLit p.src (p.cap - s.op) s.mem s.ip (s.op : Int)) s.mem :=
            memSame_copyLit _ _ _ _ _ (by omega) (by omega)
          split
          · exact ⟨rfl, h1, fun h => hNS _ h, h3⟩
          · exact ⟨⟨h1, fun h => hNS _ h⟩, h3⟩
      · -- no clamp
        rename_i hclamp
        push_neg at hclamp
        split
        · exact ⟨rfl, memSame_refl _ _⟩
        · have h1 : s.op + length ≤ p.cap := by push_cast at hclamp; omega
          have h3 : memSame p.cap (copyLit p.src length s.mem s.ip (s.op : Int)) s.mem :=
            memSame_copyLit _ _ _ _ _ (by omega) (by push_cast at hclamp ⊢; omega)
          split
          · exact ⟨rfl, h1, fun h => hNS _ h, h3⟩
          · exact ⟨⟨h1, fun h => hNS _ h⟩, h3⟩
    · -- full mode
      split
      · exact ⟨rfl, memSame_refl _ _⟩
      · rename_i hok
        push_neg at hok
        have h1 : s.op + length ≤ p.cap := by omega
        have h2 : s.ip + length = p.srcSize := by omega
        have h3 : memSame p.cap (copyLit p.src length s.mem s.ip (s.op : Int)) s.mem :=
          memSame_copyLit _ _ _ _ _ (by omega) (by omega)
        exact ⟨rfl, h1, fun _ => h2, h3⟩
  · rename_i hb
    push_neg at hb
    obtain ⟨hb1, hb2⟩ := hb
    have hw := wildChunks_le (s.op : Int) ((s.op + length : Nat) : Int)
    have hmax : max ((s.op : Int) + 8) (((s.op + length : Nat) : Int) + 7) ≤ (p.cap : Int) :=
      max_le (by push_cast at hb1 ⊢; omega) (by push_cast at hb1 ⊢; omega)
    have h1 : s.op + length ≤ p.cap := by push_cast at hb1; omega
    have h2 : p.stopEarly = false → ((s.op + length : Nat) : Int) + 8 ≤ (p.cap : Int) := by
      intro _; push_cast at hb1 ⊢; omega
    have h3 : memSame p.cap
        (copyLit p.src (8 * wildChunks (s.op : Int) ((s.op + length : Nat) : Int)) s.mem s.ip (s.op : Int)) s.mem :=
      memSame_copyLit _ _ _ _ _ (by omega) (by omega)
    exact ⟨⟨h1, h2⟩, h3⟩

/-- Peel one in-bounds `copyOut` layer off a `memSame` chain. -/
theorem memSame_copyOut' {cap : Nat} {mem mem0 : Int → Nat} {n : Nat} {s d : Int}
    (h0 : 0 ≤ d) (hn : d + (n : Int) ≤ (cap : Int)) (h : memSame cap mem mem0) :
    memSame cap (copyOut n mem s d) mem0 :=
  memSame_trans (memSame_copyOut n mem s d h0 hn) h

/-- Peel one in-bounds `copyLit` layer off a `memSame` chain. -/
theorem memSame_copyLit' {cap : Nat} {mem mem0 : Int → Nat} {src : Nat → Nat} {n ip : Nat}
    {d : Int} (h0 : 0 ≤ d) (hn : d + (n : Int) ≤ (cap : Int)) (h : memSame cap mem mem0) :
    memSame cap (copyLit src n mem ip d) mem0 :=
  memSame_trans (memSame_copyLit src n mem ip d h0 hn) h

/-- Peel one in-bounds `writePat` layer off a `memSame` chain. -/
theorem memSame_writePat' {cap : Nat} {mem mem0 : Int → Nat} {pat : Nat → Nat} {n k : Nat}
    {d : Int} (h0 : 0 ≤ d) (hn : d + (n : Int) ≤ (cap : Int)) (h : memSame cap mem mem0) :
    memSame cap (writePat pat n mem k d) mem0 :=
  memSame_trans (memSame_writePat pat n mem k d h0 hn) h

theorem readByte_lt (src : Nat → Nat) (i : Nat) : readByte src i < 256 :=
  Nat.mod_lt _ (by norm_num)

theorem safeTopStep_ok (p : Params) (hE : p.endOnInput = true) (fuel : Nat) (s : S)
    (hop : s.op ≤ p.cap) : stepOK p s (safeTopStep p fuel s) := by
  unfold safeTopStep shortcutStep
  simp only [hE, if_true]
  have htok := readByte_lt p.src s.ip
  split
  · rename_i hc
    simp only [shortcutCond, shortiend, shortoend, hE, if_true, Bool.not_true, Bool.false_or,
      Bool.and_eq_true, decide_eq_true_eq] at hc
    obtain ⟨hc1, hc2, hc3⟩ := hc
    have hll : readByte p.src s.ip / 16 ≤ 14 := by omega
    have hml : readByte p.src s.ip % 16 ≤ 15 := by omega
    split
    · rename_i hinl
      obtain ⟨hml14, _, _⟩ := hinl
      have hml' : readByte p.src s.ip % 16 ≤ 14 := by omega
      have h1 : s.op + readByte p.src s.ip / 16 + readByte p.src s.ip % 16 + 4 ≤ p.cap := by
        omega
      have hA : memSame p.cap
          (copyOut 18
            (copyLit p.src 16 s.mem (s.ip + 1) (s.op : Int))
            ((((s.op + readByte p.src s.ip / 16 : Nat)) : Int) -
              (readLE16 p.src (s.ip + 1 + readByte p.src s.ip / 16) : Int))
            ((s.op + readByte p.src s.ip / 16 : Nat) : Int))
          (copyLit p.src 16 s.mem (s.ip + 1) (s.op : Int)) :=
        memSame_copyOut _ _ _ _ (by push_cast; omega) (by push_cast; omega)
      have hB : memSame p.cap (copyLit p.src 16 s.mem (s.ip + 1) (s.op : Int)) s.mem :=
        memSame_copyLit _ _ _ _ _ (by omega) (by push_cast; omega)
      exact ⟨h1, memSame_trans hA hB⟩
    · have h1 : s.op + readByte p.src s.ip / 16 ≤ p.cap := by omega
      have h2 : p.stopEarly = false →
          ((s.op + readByte p.src s.ip / 16 : Nat) : Int) + 8 ≤ (p.cap : Int) := by
        intro _; push_cast; omega
      have h3 : memSame p.cap (copyLit p.src 16 s.mem (s.ip + 1) (s.op : Int)) s.mem :=
        memSame_copyLit _ _ _ _ _ (by omega) (by push_cast; omega)
      exact ⟨⟨h1, h2⟩, h3⟩
  · split
    · split
      · exact memSame_refl _ _
      · split
        · exact ⟨rfl, memSame_refl _ _⟩
        · exact ⟨hop, memSame_refl _ _⟩
    · exact ⟨hop, memSame_refl _ _⟩

theorem matchCopyStep_ok (p : Params) (hE : p.endOnInput = true) (s : S)
    (length offset : Nat) (m : Int) (hop : s.op ≤ p.cap) (hlen : 4 ≤ length)
    (h8 : p.stopEarly = false → (s.op : Int) + 8 ≤ (p.cap : Int)) :
    stepOK p s (matchCopyStep p s length offset m) := by
  unfold matchCopyStep
  simp only [hE, if_true]
  split
  · -- partial clamp branch
    rename_i hcl
    obtain ⟨hSE, hcpy⟩ := hcl
    have hmin : min length (p.cap - s.op) ≤ p.cap - s.op := min_le_right _ _
    have h1 : s.op + min length (p.cap - s.op) ≤ p.cap := by omega
    have hm : memSame p.cap (copyOut (min length (p.cap - s.op)) s.mem m (s.op : Int)) s.mem :=
      memSame_copyOut _ _ _ _ (by omega) (by push_cast; omega)
    have hNS : ∀ (P : Prop), p.stopEarly = false → P := fun P h => by
      rw [h] at hSE; cases hSE
    split
    · exact ⟨rfl, h1, hNS _, hm⟩
    · exact ⟨h1, hm⟩
  · rename_i hg
    have hop8 : (s.op : Int) + 8 ≤ (p.cap : Int) := by
      cases hSE : p.stopEarly with
      | false => exact h8 hSE
      | true =>
        rw [not_and] at hg
        have := hg hSE
        push_neg at this
        have hoc : s.op ≤ s.op + length := Nat.le_add_right _ _
        push_cast at this
        omega
    split
    · -- cpy past oend - 12
      rename_i hfar
      split
      · -- error: last five bytes must be literals
        refine ⟨rfl, ?_⟩
        split
        · exact memSame_copyOut' (by omega) (by push_cast; omega)
            (memSame_copyOut' (by omega) (by push_cast; omega) (memSame_refl _ _))
        · exact memSame_copyOut' (by omega) (by push_cast; omega) (memSame_refl _ _)
      · rename_i hnear
        push_neg at hnear
        have hcap5 : ((s.op + length : Nat) : Int) ≤ (p.cap : Int) - 5 := hnear
        constructor
        · show s.op + length ≤ p.cap
          push_cast at hcap5; omega
        · -- memSame through mem4 ∘ mem3 ∘ mem2
          have hchunks := wildChunks_le ((s.op + 8 : Nat) : Int) ((p.cap : Int) - 7)
          split
          · -- op8 < oCopyLimit : wildcopy then byte loop
            rename_i hlim
            have hbound : ((s.op + 8 : Nat) : Int) +
                ((8 * wildChunks ((s.op + 8 : Nat) : Int) ((p.cap : Int) - 7) : Nat) : Int) ≤
                (p.cap : Int) := by
              have : max (((s.op + 8 : Nat) : Int) + 8) ((p.cap : Int) - 7 + 7) ≤ (p.cap : Int) :=
                max_le (by push_cast at hlim ⊢; omega) (by omega)
              omega
            have htoN : ((p.cap : Int) - 7) +
                ((((s.op + length : Nat) : Int) - ((p.cap : Int) - 7)).toNat : Int) ≤
                (p.cap : Int) := by
              rcases le_or_lt (((s.op + length : Nat) : Int)) ((p.cap : Int) - 7) with h | h
              · rw [Int.toNat_of_nonpos (by omega)]; omega
              · rw [Int.toNat_of_nonneg (by omega)]; omega
            refine memSame_copyOut' (by omega) htoN ?_
            refine memSame_copyOut' (by push_cast; omega) hbound ?_
            split
            · exact memSame_copyOut' (by omega) (by push_cast; omega)
                (memSame_copyOut' (by omega) (by push_cast; omega) (memSame_refl _ _))
            · exact memSame_copyOut' (by omega) (by push_cast; omega) (memSame_refl _ _)
          · -- op8 ≥ oCopyLimit : byte loop only
            rename_i hlim
            push_neg at hlim
            have htoN : ((s.op + 8 : Nat) : Int) +
                ((((s.op + length : Nat) : Int) - ((s.op + 8 : Nat) : Int)).toNat : Int) ≤
                (p.cap : Int) := by
              rcases le_or_lt (((s.op + length : Nat) : Int)) (((s.op + 8 : Nat) : Int)) with h | h
              · rw [Int.toNat_of_nonpos (by omega)]; omega
              · rw [Int.toNat_of_nonneg (by omega)]; push_cast at h ⊢; omega
            refine memSame_copyOut' (by push_cast; omega) htoN ?_
            split
            · exact memSame_copyOut' (by omega) (by push_cast; omega)
                (memSame_copyOut' (by omega) (by push_cast; omega) (memSame_refl _ _))
            · exact memSame_copyOut' (by omega) (by push_cast; omega) (memSame_refl _ _)
    · -- regular tail
      rename_i hfar
      push_neg at hfar
      have hcap12 : ((s.op + length : Nat) : Int) ≤ (p.cap : Int) - 12 := hfar
      have hop16 : (s.op : Int) + 16 ≤ (p.cap : Int) := by push_cast at hcap12; omega
      constructor
      · show s.op + length ≤ p.cap
        push_cast at hcap12; omega
      · have hchunks := wildChunks_le (((s.op + 8 : Nat) : Int) + 8) ((s.op + length : Nat) : Int)
        split
        · -- 16 < length : wildcopy tail
          rename_i h16
          have hbound : (((s.op + 8 : Nat) : Int) + 8) +
              ((8 * wildChunks (((s.op + 8 : Nat) : Int) + 8) ((s.op + length : Nat) : Int) : Nat) : Int) ≤
              (p.cap : Int) := by
            have : max ((((s.op + 8 : Nat) : Int) + 8) + 8)
                (((s.op + length : Nat) : Int) + 7) ≤ (p.cap : Int) :=
              max_le (by push_cast at hcap12 ⊢; omega) (by omega)
            omega
          refine memSame_copyOut' (by push_cast; omega) hbound ?_
          refine memSame_copyOut' (by push_cast; omega) (by push_cast at hop16 ⊢; omega) ?_
          split
          · exact memSame_copyOut' (by omega) (by push_cast; omega)
              (memSame_copyOut' (by omega) (by push_cast; omega) (memSame_refl _ _))
          · exact memSame_copyOut' (by omega) (by push_cast; omega) (memSame_refl _ _)
        · refine memSame_copyOut' (by push_cast; omega) (by push_cast at hop16 ⊢; omega) ?_
          split
          · exact memSame_copyOut' (by omega) (by push_cast; omega)
              (memSame_copyOut' (by omega) (by push_cast; omega) (memSame_refl _ _))
          · exact memSame_copyOut' (by omega) (by push_cast; omega) (memSame_refl _ _)

theorem wild32Chunks_le (d e : Int) :
    d + ((32 * wild32Chunks d e : Nat) : Int) ≤ max (d + 32) (e + 31) := by
  unfold wild32Chunks
  split
  · simp only [Nat.mul_one]
    exact le_max_of_le_left (by omega)
  · rename_i h
    refine le_max_of_le_right ?_
    have h1 : 32 * (((e - d).toNat + 31) / 32) ≤ (e - d).toNat + 31 := by
      calc 32 * (((e - d).toNat + 31) / 32) = (((e - d).toNat + 31) / 32) * 32 := by ring
        _ ≤ (e - d).toNat + 31 := Nat.div_mul_le_self _ _
    have h2 : ((e - d).toNat : Int) = e - d := Int.toNat_of_nonneg (by omega)
    omega

theorem stepOK_mono (p : Params) (s0 s1 : S) (st : Step) (h : stepOK p s1 st)
    (hm : memSame p.cap s1.mem s0.mem) : stepOK p s0 st := by
  cases st with
  | next ph' s' => exact ⟨h.1, memSame_trans h.2 hm⟩
  | halt r =>
    cases r with
    | ok r s' => exact ⟨h.1, h.2.1, h.2.2.1, memSame_trans h.2.2.2 hm⟩
    | err r s' => exact ⟨h.1, memSame_trans h.2 hm⟩
    | out ph s' => exact memSame_trans h hm

theorem memSame_memcpyUsingOffset {cap : Nat} (mem : Int → Nat) (m d e : Int) (offset : Nat)
    (h0 : 0 ≤ d) (h16 : d + 16 ≤ (cap : Int)) (he : e + 7 ≤ (cap : Int)) :
    memSame cap (LZ4_memcpy_using_offset mem m d e offset) mem := by
  unfold LZ4_memcpy_using_offset
  split
  · have hw := wildChunks_le d e
    refine memSame_writePat' h0 ?_ (memSame_refl _ _)
    have : max (d + 8) (e + 7) ≤ (cap : Int) := max_le (by omega) (by omega)
    omega
  · split
    · have hw := wildChunks_le (d + 8) e
      refine memSame_copyOut' (by omega) ?_ ?_
      · have : max (d + 8 + 8) (e + 7) ≤ (cap : Int) := max_le (by omega) (by omega)
        omega
      · exact memSame_copyOut' (by omega) (by omega)
          (memSame_copyOut' (by omega) (by omega) (memSame_refl _ _))
    · have hw := wildChunks_le (d + 8) e
      refine memSame_copyOut' (by omega) ?_ ?_
      · have : max (d + 8 + 8) (e + 7) ≤ (cap : Int) := max_le (by omega) (by omega)
        omega
      · exact memSame_copyOut' (by omega) (by omega) (memSame_refl _ _)

theorem fastMatchCopy_ok (p : Params) (s : S) (len offset : Nat) (m : Int)
    (hlen : 4 ≤ len) (hfit : (s.op : Int) + (len : Int) ≤ (p.cap : Int) - 65) :
    stepOK p s (fastMatchCopy p s len offset m) := by
  unfold fastMatchCopy
  have h1 : ((s.op + len : Nat) : Int) + 64 ≤ (p.cap : Int) := by push_cast; omega
  refine ⟨h1, ?_⟩
  split
  · exact memSame_memcpyUsingOffset _ _ _ _ _ (by omega) (by omega)
      (by push_cast; omega)
  · have hw := wild32Chunks_le (s.op : Int) ((s.op + len : Nat) : Int)
    refine memSame_copyOut' (by omega) ?_ (memSame_refl _ _)
    have : max ((s.op : Int) + 32) (((s.op + len : Nat) : Int) + 31) ≤ (p.cap : Int) :=
      max_le (by omega) (by push_cast; omega)
    omega

theorem fastMatchPart_ok (p : Params) (_hE : p.endOnInput = true) (fuel token ip' op' : Nat)
    (mem' : Int → Nat) (hop18 : (op' : Int) + 18 ≤ (p.cap : Int)) :
    stepOK p ⟨ip', op', mem'⟩ (fastMatchPart p fuel token ip' op' mem') := by
  have hopc : op' ≤ p.cap := by omega
  have hop8 : (op' : Int) + 8 ≤ (p.cap : Int) := by omega
  unfold fastMatchPart
  dsimp only
  split
  · exact ⟨rfl, memSame_refl _ _⟩
  · split
    · -- extended match length
      split
      · exact memSame_refl _ _
      · rename_i ext ip3 e heq
        split
        · exact ⟨rfl, memSame_refl _ _⟩
        · split
          · exact ⟨⟨hopc, by omega, fun _ => hop8⟩, memSame_refl _ _⟩
          · rename_i hfit
            push_neg at hfit
            refine stepOK_mono _ _ _ _ (fastMatchCopy_ok p _ _ _ _ (by omega) ?_)
              (memSame_refl _ _)
            push_cast at hfit ⊢
            omega
    · split
      · exact ⟨⟨hopc, by omega, fun _ => hop8⟩, memSame_refl _ _⟩
      · split
        · -- regular-match fast path: 18-byte copy then stay in the fast loop
          rename_i hfit _
          push_neg at hfit
          have h1 : ((op' + (token % 16 + 4) : Nat) : Int) + 64 ≤ (p.cap : Int) := by
            push_cast at hfit ⊢
            omega
          exact ⟨h1, memSame_copyOut' (by omega) (by omega) (memSame_refl _ _)⟩
        · rename_i hfit _
          push_neg at hfit
          refine stepOK_mono _ _ _ _ (fastMatchCopy_ok p _ _ _ _ (by omega) ?_)
            (memSame_refl _ _)
          push_cast at hfit ⊢
          omega

theorem fastTopStep_ok (p : Params) (hE : p.endOnInput = true) (fuel : Nat) (s : S)
    (hInv : (s.op : Int) + 64 ≤ (p.cap : Int)) : stepOK p s (fastTopStep p fuel s) := by
  have hopc : s.op ≤ p.cap := by omega
  unfold fastTopStep
  simp only [hE, if_true]
  have htok := readByte_lt p.src s.ip
  split
  · -- extended literal length
    split
    · exact memSame_refl _ _
    · rename_i ext ip' e heq
      split
      · exact ⟨rfl, memSame_refl _ _⟩
      · split
        · exact ⟨hopc, memSame_refl _ _⟩
        · rename_i hlit
          push_neg at hlit
          obtain ⟨hlit1, _⟩ := hlit
          have hw := wild32Chunks_le (s.op : Int) ((s.op + (15 + ext) : Nat) : Int)
          refine stepOK_mono _ _ _ _
            (fastMatchPart_ok p hE fuel _ _ _ _ (by push_cast at hlit1 ⊢; omega)) ?_
          refine memSame_copyLit' (by omega) ?_ (memSame_refl _ _)
          have : max ((s.op : Int) + 32) ((((s.op + (15 + ext) : Nat)) : Int) + 31) ≤ (p.cap : Int) :=
            max_le (by omega) (by push_cast at hlit1 ⊢; omega)
          omega
  · -- short literal
    rename_i hll
    have hll14 : readByte p.src s.ip / 16 ≤ 14 := by omega
    split
    · exact ⟨hopc, memSame_refl _ _⟩
    · rename_i hsh
      push_neg at hsh
      refine stepOK_mono _ _ _ _
        (fastMatchPart_ok p hE fuel _ _ _ _ (by push_cast; omega)) ?_
      exact memSame_copyLit' (by omega) (by push_cast; omega) (memSame_refl _ _)

theorem stepPhase_ok (p : Params) (hE : p.endOnInput = true) (fuel : Nat) (ph : Phase) (s : S)
    (hInv : phInv p ph s) : stepOK p s (stepPhase p fuel ph s) := by
  cases ph with
  | fastTop => exact fastTopStep_ok p hE fuel s hInv
  | safeTop => exact safeTopStep_ok p hE fuel s hInv
  | litCopy t l => exact litCopyStep_ok p hE s t l hInv
  | copyMatch ml off m => exact copyMatchStep_ok p s ml off m fuel hInv.1 hInv.2
  | matchCopy l off m => exact matchCopyStep_ok p hE s l off m hInv.1 hInv.2.1 hInv.2.2

theorem resOK_mono (p : Params) (mem0 mem1 : Int → Nat) (r : Res) (h : resOK p mem1 r)
    (hm : memSame p.cap mem1 mem0) : resOK p mem0 r := by
  cases r with
  | ok r s' => exact ⟨h.1, h.2.1, h.2.2.1, memSame_trans h.2.2.2 hm⟩
  | err r s' => exact ⟨h.1, memSame_trans h.2 hm⟩
  | out ph s' => exact memSame_trans h hm

theorem run_resOK (p : Params) (hE : p.endOnInput = true) :
    ∀ (n : Nat) (ph : Phase) (s : S), phInv p ph s → resOK p s.mem (run p n ph s) := by
  intro n
  induction n with
  | zero => intro ph s _; exact memSame_refl _ _
  | succ k ih =>
    intro ph s hInv
    have hstep := stepPhase_ok p hE k ph s hInv
    cases hst : stepPhase p k ph s with
    | next ph' s' =>
      rw [hst] at hstep
      simp only [run, hst]
      exact resOK_mono _ _ _ _ (ih ph' s' hstep.1) hstep.2
    | halt r =>
      rw [hst] at hstep
      simp only [run, hst]
      cases r with
      | ok r s' => exact hstep
      | err r s' => exact hstep
      | out ph2 s' => exact hstep

/-- The whole-call guarantees of a safe (`endOnInput`) decode, any
directives: no write outside `[0, cap)`; a success returns the final
output cursor, at most the capacity, and (in full mode, when the run was
not a degenerate empty-output special case) the input fully consumed; an
error returns `-(final ip) - 1`. -/
theorem decompressGeneric_ok (p : Params) (hE : p.endOnInput = true) (mem0 : Int → Nat)
    (fuel : Nat) :
    memSame p.cap (LZ4_decompress_generic p mem0 fuel).memOf mem0 ∧
    (∀ r s', LZ4_decompress_generic p mem0 fuel = Res.ok r s' →
      r = (s'.op : Int) ∧ s'.op ≤ p.cap ∧
        (p.stopEarly = false → 0 < p.cap → s'.ip = p.srcSize)) ∧
    (∀ r s', LZ4_decompress_generic p mem0 fuel = Res.err r s' → r = -(s'.ip : Int) - 1) := by
  unfold LZ4_decompress_generic
  split
  · rename_i hcap
    split
    · refine ⟨memSame_refl _ _, ?_, ?_⟩
      · intro r s' h
        cases h
        refine ⟨rfl, ?_, fun _ hpos => absurd hpos (by omega)⟩
        show (0 : Nat) ≤ p.cap
        omega
      · intro r s' h
        cases h
    · refine ⟨memSame_refl _ _, ?_, ?_⟩
      · intro r s' h
        cases h
      · intro r s' h
        cases h
        rfl
  · split
    · rename_i hfirst hsecond
      rw [hE] at hsecond
      exact Bool.noConfusion hsecond.1
    · split
      · refine ⟨memSame_refl _ _, ?_, ?_⟩
        · intro r s' h
          cases h
        · intro r s' h
          cases h
          rfl
      · split
        · rename_i hsmall
          have hres := run_resOK p hE fuel Phase.safeTop ⟨0, 0, mem0⟩ (by
            show (0 : Nat) ≤ p.cap
            omega)
          refine ⟨?_, ?_, ?_⟩
          · cases hr : run p fuel Phase.safeTop ⟨0, 0, mem0⟩ with
            | ok r s' => rw [hr] at hres; exact hres.2.2.2
            | err r s' => rw [hr] at hres; exact hres.2
            | out ph s' => rw [hr] at hres; exact hres
          · intro r s' h
            rw [h] at hres
            exact ⟨hres.1, hres.2.1, fun hf _ => hres.2.2.1 hf⟩
          · intro r s' h
            rw [h] at hres
            exact hres.1
        · rename_i hbig
          have hres := run_resOK p hE fuel Phase.fastTop ⟨0, 0, mem0⟩ (by
            show ((0 : Nat) : Int) + 64 ≤ (p.cap : Int)
            omega)
          refine ⟨?_, ?_, ?_⟩
          · cases hr : run p fuel Phase.fastTop ⟨0, 0, mem0⟩ with
            | ok r s' => rw [hr] at hres; exact hres.2.2.2
            | err r s' => rw [hr] at hres; exact hres.2
            | out ph s' => rw [hr] at hres; exact hres
          · intro r s' h
            rw [h] at hres
            exact ⟨hres.1, hres.2.1, fun hf _ => hres.2.2.1 hf⟩
          · intro r s' h
            rw [h] at hres
            exact hres.1

theorem fastMatchCopy_fastOk (p : Params) (s : S) (len offset : Nat) (m : Int) :
    fastOkP p (fastMatchCopy p s len offset m) := by
  unfold fastMatchCopy
  trivial

theorem fastMatchPart_fastOk (p : Params) (hE : p.endOnInput = false)
    (fuel token ip' op' : Nat) (mem' : Int → Nat) :
    fastOkP p (fastMatchPart p fuel token ip' op' mem') := by
  unfold fastMatchPart
  simp only [hE]
  split
  · trivial
  · split
    · split
      · trivial
      · split
        · trivial
        · split
          · trivial
          · exact fastMatchCopy_fastOk _ _ _ _ _
    · split
      · trivial
      · split
        · trivial
        · exact fastMatchCopy_fastOk _ _ _ _ _

theorem stepPhase_fastOk (p : Params) (hE : p.endOnInput = false) (hP : p.stopEarly = false)
    (fuel : Nat) (ph : Phase) (s : S) : fastOkP p (stepPhase p fuel ph s) := by
  cases ph with
  | fastTop =>
    show fastOkP p (fastTopStep p fuel s)
    unfold fastTopStep
    simp only [hE, Bool.false_eq_true, if_false]
    split
    · split
      · trivial
      · split
        · trivial
        · split
          · trivial
          · exact fastMatchPart_fastOk p hE _ _ _ _ _
    · exact fastMatchPart_fastOk p hE _ _ _ _ _
  | safeTop =>
    show fastOkP p (safeTopStep p fuel s)
    unfold safeTopStep shortcutStep
    simp only [hE, Bool.false_eq_true, if_false]
    split
    · split <;> trivial
    · split
      · split
        · trivial
        · split <;> trivial
      · trivial
  | litCopy t l =>
    show fastOkP p (litCopyStep p s t l)
    unfold litCopyStep afterLitCopy
    simp only [hE, hP, Bool.false_eq_true, if_false, Bool.false_and, Bool.not_false,
      Bool.true_and, Bool.or_false, Bool.false_or, decide_eq_true_eq]
    split
    · split
      · trivial
      · rename_i hok
        have hcap : s.op + l = p.cap := by omega
        exact ⟨rfl, hcap⟩
    · trivial
  | copyMatch ml off m =>
    show fastOkP p (copyMatchStep p fuel s ml off m)
    unfold copyMatchStep copyMatchCont
    split
    · trivial
    · split
      · split
        · trivial
        · split <;> trivial
      · trivial
  | matchCopy l off m =>
    show fastOkP p (matchCopyStep p s l off m)
    unfold matchCopyStep
    simp only [hP, Bool.false_eq_true, false_and, if_false]
    split
    · split <;> trivial
    · split <;> trivial

theorem run_fastOk (p : Params) (hE : p.endOnInput = false) (hP : p.stopEarly = false) :
    ∀ (n : Nat) (ph : Phase) (s : S) (r : Int) (s' : S),
      run p n ph s = Res.ok r s' → r = (s'.ip : Int) ∧ s'.op = p.cap := by
  intro n
  induction n with
  | zero =>
    intro ph s r s' h
    cases h
  | succ k ih =>
    intro ph s r s' h
    have hstep := stepPhase_fastOk p hE hP k ph s
    rw [run] at h
    cases hst : stepPhase p k ph s with
    | next ph2 s2 =>
      rw [hst] at h
      exact ih ph2 s2 r s' h
    | halt r0 =>
      rw [hst] at h
      rw [hst] at hstep
      cases r0 with
      | ok r1 s1 =>
        cases h
        exact hstep
      | err r1 s1 => cases h
      | out ph1 s1 => cases h

/-- C1: For every input byte sequence, valid or malformed, and every output
capacity, `LZ4_decompress_safe` writes no byte outside
`output[0 .. output_capacity)`: whatever the decode did before returning
(including a fuel-exhausted partial execution of the model), the output
memory is unchanged at every index outside the caller-supplied region. -/
theorem lz4_safe_no_wild_writes (src : Nat → Nat) (srcSize cap : Nat) (mem0 : Int → Nat)
    (fuel : Nat) (j : Int) (hj : j < 0 ∨ (cap : Int) ≤ j) :
    (LZ4_decompress_safe src srcSize cap mem0 fuel).memOf j = mem0 j :=
  (decompressGeneric_ok (safeParams src srcSize cap) rfl mem0 fuel).1 j hj

theorem lz4_safe_no_wild_writes_witness :
    (LZ4_decompress_safe (fun i => [0x50, 72, 101, 108, 108, 111].getD i 0) 6 5
      (fun _ => 7) 20).memOf (-1) = 7 :=
  lz4_safe_no_wild_writes _ 6 5 _ 20 (-1) (Or.inl (by decide))

/-- C2: `checkOffset` holds exactly when the decode is input-bounded and
the dictionary is smaller than 64 KiB; when it holds, a decoded match with
`match + dictSize < lowPrefix` makes `_copy_match` return the error
immediately; when it does not hold, the range check is not performed and
`_copy_match` proceeds straight to the match-length decoding. -/
theorem lz4_checkOffset_spec :
    (∀ p : Params, checkOffset p = true ↔ (p.endOnInput = true ∧ p.dictSize < 65536)) ∧
    (∀ (p : Params) (fuel : Nat) (s : S) (mlen offset : Nat) (m : Int),
      checkOffset p = true → m + (p.dictSize : Int) < p.lowLimit →
      stepPhase p fuel (Phase.copyMatch mlen offset m) s = errAt s) ∧
    (∀ (p : Params) (fuel : Nat) (s : S) (mlen offset : Nat) (m : Int),
      checkOffset p = false →
      stepPhase p fuel (Phase.copyMatch mlen offset m) s = copyMatchCont p fuel s mlen offset m) := by
  refine ⟨?_, ?_, ?_⟩
  · intro p
    simp [checkOffset, Bool.and_eq_true, decide_eq_true_eq]
  · intro p fuel s mlen offset m hc hm
    show copyMatchStep p fuel s mlen offset m = errAt s
    unfold copyMatchStep
    rw [if_pos ⟨hc, hm⟩]
  · intro p fuel s mlen offset m hc
    show copyMatchStep p fuel s mlen offset m = copyMatchCont p fuel s mlen offset m
    unfold copyMatchStep
    rw [if_neg (fun hcon => Bool.noConfusion (hc ▸ hcon.1))]

theorem lz4_checkOffset_spec_witness :
    (checkOffset (safeParams (fun _ => 0) 10 20) = true ∧ (0 : Nat) < 65536) ∧
    stepPhase (safeParams (fun _ => 0) 10 20) 5 (Phase.copyMatch 3 9 (-9))
      ⟨4, 0, fun _ => 0⟩ = errAt ⟨4, 0, fun _ => 0⟩ ∧
    stepPhase (fastParams (fun _ => 0) 20) 5 (Phase.copyMatch 3 9 (-9))
      ⟨4, 0, fun _ => 0⟩ = copyMatchCont (fastParams (fun _ => 0) 20) 5
      ⟨4, 0, fun _ => 0⟩ 3 9 (-9) :=
  ⟨⟨rfl, by decide⟩,
    lz4_checkOffset_spec.2.1 _ 5 _ 3 9 (-9) rfl (by decide),
    lz4_checkOffset_spec.2.2 _ 5 _ 3 9 (-9) rfl⟩

/-- C4: every failing `LZ4_decompress_safe` call returns a negative value
equal to `-(bytes consumed at the detection point) - 1`; this covers every
error path, including the degenerate empty-input and empty-output cases
(which return `-1` with the cursor still at the input start). -/
theorem lz4_safe_error_encoding (src : Nat → Nat) (srcSize cap : Nat) (mem0 : Int → Nat)
    (fuel : Nat) (r : Int) (s' : S)
    (h : LZ4_decompress_safe src srcSize cap mem0 fuel = Res.err r s') :
    r < 0 ∧ r = -(s'.ip : Int) - 1 := by
  have := (decompressGeneric_ok (safeParams src srcSize cap) rfl mem0 fuel).2.2 r s' h
  refine ⟨?_, this⟩
  have h0 : (0 : Int) ≤ (s'.ip : Int) := Int.ofNat_nonneg _
  omega

theorem lz4_safe_error_encoding_witness :
    LZ4_decompress_safe (fun _ => 0) 0 5 (fun _ => 0) 5 = Res.err (-1) ⟨0, 0, fun _ => 0⟩ ∧
    (-1 : Int) < 0 ∧ (-1 : Int) = -((0 : Nat) : Int) - 1 :=
  ⟨rfl, lz4_safe_error_encoding (fun _ => 0) 0 5 (fun _ => 0) 5 (-1) ⟨0, 0, fun _ => 0⟩ rfl⟩

/-- C5 counterexample: the decoder does not reject a zero offset.  The
input `c5src` encodes a match whose offset field decodes to 0
(`readLE16 c5src 2 = 0`), yet `LZ4_decompress_safe` succeeds (returns 14,
all 14 output bytes produced), because with `noDict` the only offset check
is `match + dictSize < lowPrefix`, and `match = op - 0 = op ≥ lowPrefix`
always passes it.  This refutes the claim that a zero offset is rejected
with an error before the match copy in safe mode. -/
theorem lz4_c5_offset_zero_accepted :
    readLE16 c5src 2 = 0 ∧
    Res.isOkB (LZ4_decompress_safe c5src 10 14 (fun _ => 0) 12) = true ∧
    Res.retOf (LZ4_decompress_safe c5src 10 14 (fun _ => 0) 12) = 14 :=
  ⟨rfl, rfl, rfl⟩

/-- C5 amended: a zero offset is not rejected.  In the `LZ4_decompress_safe`
instantiation the `_copy_match` range check `match + dictSize < lowPrefix`
is the only offset validation, and an offset of 0 (match cursor equal to
the output cursor) always passes it, so decoding proceeds to the match
copy. -/
theorem lz4_c5_offset_zero_passes_check (src : Nat → Nat) (srcSize cap fuel : Nat)
    (s : S) (mlen : Nat) :
    stepPhase (safeParams src srcSize cap) fuel (Phase.copyMatch mlen 0 (s.op : Int)) s =
      copyMatchCont (safeParams src srcSize cap) fuel s mlen 0 (s.op : Int) := by
  show copyMatchStep _ fuel s mlen 0 _ = _
  unfold copyMatchStep
  rw [if_neg]
  intro hcon
  have h2 := hcon.2
  have h0 : (0 : Int) ≤ (s.op : Int) := Int.ofNat_nonneg _
  simp only [safeParams] at h2
  omega

/-- C9: the degenerate-size conventions.  Safe mode with zero output
capacity succeeds (with 0) exactly on the one-byte input `0x00` and fails
with `-1` otherwise; fast mode with zero original size succeeds (with 1)
exactly when the first input byte is `0x00`; safe mode with an empty input
always fails. -/
theorem lz4_degenerate_sizes :
    (∀ (src : Nat → Nat) (srcSize : Nat) (mem0 : Int → Nat) (fuel : Nat),
      LZ4_decompress_safe src srcSize 0 mem0 fuel =
        if srcSize = 1 ∧ readByte src 0 = 0 then Res.ok 0 ⟨0, 0, mem0⟩
        else Res.err (-1) ⟨0, 0, mem0⟩) ∧
    (∀ (src : Nat → Nat) (mem0 : Int → Nat) (fuel : Nat),
      LZ4_decompress_fast src 0 mem0 fuel =
        if readByte src 0 = 0 then Res.ok 1 ⟨0, 0, mem0⟩ else Res.err (-1) ⟨0, 0, mem0⟩) ∧
    (∀ (src : Nat → Nat) (cap : Nat) (mem0 : Int → Nat) (fuel : Nat),
      LZ4_decompress_safe src 0 cap mem0 fuel = Res.err (-1) ⟨0, 0, mem0⟩) := by
  refine ⟨fun src srcSize mem0 fuel => rfl, fun src mem0 fuel => rfl, ?_⟩
  intro src cap mem0 fuel
  show LZ4_decompress_generic (safeParams src 0 cap) mem0 fuel = _
  unfold LZ4_decompress_generic
  rcases Nat.eq_zero_or_pos cap with hcap | hcap
  · subst hcap
    rw [if_pos ⟨rfl, rfl⟩, if_neg (fun hcon => by simp [safeParams] at hcon)]
  · rw [if_neg (fun hcon => by simp only [safeParams] at hcon; omega),
      if_neg (fun hcon => Bool.noConfusion hcon.1), if_pos ⟨rfl, rfl⟩]

/-- C10: in partial mode, when a literal copy goes through the bounded
branch without clamping (`op + length ≤ output_end`), consumes at most the
input, and afterwards fewer than 2 bytes separate the input cursor from
`input_end - 2` (`ip + length ≥ input_end - 2`), the loop breaks with
success even though the output is not full, returning the bytes written so
far; the remaining input bytes are ignored. -/
theorem lz4_partial_early_exit (src : Nat → Nat) (srcSize cap : Nat) (s : S)
    (token len : Nat)
    (hb : ((cap : Int) - 12 < ((s.op + len : Nat) : Int)) ∨
      ((srcSize : Int) - 8 < (s.ip : Int) + (len : Int)))
    (hlt : s.op + len < cap)
    (hin : (s.ip : Int) + (len : Int) ≤ (srcSize : Int))
    (hip2 : (srcSize : Int) - 2 ≤ ((s.ip + len : Nat) : Int)) :
    (litCopyStep (partParams src srcSize cap) s token len).retOk? =
      some ((s.op + len : Nat) : Int) ∧
    (litCopyStep (partParams src srcSize cap) s token len).okCursors? =
      some (s.ip + len, s.op + len) := by
  unfold litCopyStep
  simp only [partParams, Bool.true_and, Bool.not_true, Bool.false_and, Bool.or_false,
    Bool.or_eq_true, decide_eq_true_eq, eq_self_iff_true, true_and, if_true]
  split
  · split
    · rename_i hcl
      exact absurd hcl (by omega)
    · split
      · rename_i herr
        exact absurd herr (by omega)
      · split
        · exact ⟨rfl, rfl⟩
        · rename_i hbr
          push_neg at hbr
          exact absurd hbr.2 (by push_cast at hip2 ⊢; omega)
  · rename_i hbnd
    exact absurd hb hbnd

theorem lz4_partial_early_exit_witness :
    (litCopyStep (partParams c10src 10 20) ⟨0, 0, fun _ => 0⟩ 0x80 8).retOk? = some 8 ∧
    (litCopyStep (partParams c10src 10 20) ⟨0, 0, fun _ => 0⟩ 0x80 8).okCursors? =
      some (8, 8) :=
  lz4_partial_early_exit c10src 10 20 ⟨0, 0, fun _ => 0⟩ 0x80 8
    (Or.inr (by decide)) (by decide) (by decide) (by decide)

/-- C3 counterexample: the degenerate empty-output success does not consume
the input.  `LZ4_decompress_safe` on the one-byte input `0x00` with
capacity 0 returns success 0, but the final input cursor is still 0 while
`input_end = 1`: the claim that every full-mode success has
`ip == input_end` fails on this path (line 203 returns before the cursor
ever moves). -/
theorem lz4_c3_degenerate_cursor :
    LZ4_decompress_safe (fun _ => 0) 1 0 (fun _ => 0) 5 = Res.ok 0 ⟨0, 0, fun _ => 0⟩ ∧
    (0 : Nat) ≠ 1 :=
  ⟨rfl, by decide⟩

/-- C3 amended: for every full-mode success with a positive output
capacity, safe mode consumed the whole input (`ip = srcSize`) and returned
the number of output bytes written (the final output cursor), and fast
mode filled the whole output (`op = originalSize`) and returned the number
of input bytes read (the final input cursor).  (With capacity 0 the
degenerate returns 0 resp. 1 leave both cursors at 0.) -/
theorem lz4_c3_full_accounting :
    (∀ (src : Nat → Nat) (srcSize cap : Nat) (mem0 : Int → Nat) (fuel : Nat) (r : Int) (s' : S),
      0 < cap → LZ4_decompress_safe src srcSize cap mem0 fuel = Res.ok r s' →
      r = (s'.op : Int) ∧ s'.ip = srcSize) ∧
    (∀ (src : Nat → Nat) (osz : Nat) (mem0 : Int → Nat) (fuel : Nat) (r : Int) (s' : S),
      0 < osz → LZ4_decompress_fast src osz mem0 fuel = Res.ok r s' →
      r = (s'.ip : Int) ∧ s'.op = osz) := by
  constructor
  · intro src srcSize cap mem0 fuel r s' hpos h
    have hh := (decompressGeneric_ok (safeParams src srcSize cap) rfl mem0 fuel).2.1 r s' h
    exact ⟨hh.1, hh.2.2 rfl hpos⟩
  · intro src osz mem0 fuel r s' hpos h
    unfold LZ4_decompress_fast LZ4_decompress_generic at h
    rw [if_neg (fun hcon => Bool.noConfusion hcon.1)] at h
    rw [if_neg (fun hcon => by simp only [fastParams] at hcon; omega)] at h
    rw [if_neg (fun hcon => Bool.noConfusion hcon.1)] at h
    split at h
    · exact run_fastOk (fastParams src osz) rfl rfl fuel Phase.safeTop ⟨0, 0, mem0⟩ r s' h
    · exact run_fastOk (fastParams src osz) rfl rfl fuel Phase.fastTop ⟨0, 0, mem0⟩ r s' h

theorem lz4_c3_full_accounting_witness :
    ((0 : Nat) < 5 ∧ ((5 : Int) = (c3aS.op : Int) ∧ c3aS.ip = 6)) ∧
    ((0 : Nat) < 5 ∧ ((6 : Int) = (c3aS.ip : Int) ∧ c3aS.op = 5)) :=
  ⟨⟨by decide, lz4_c3_full_accounting.1 c3aSrc 6 5 (fun _ => 0) 20 5 c3aS (by decide) rfl⟩,
   ⟨by decide, lz4_c3_full_accounting.2 c3aSrc 5 (fun _ => 0) 20 6 c3aS (by decide) rfl⟩⟩

/-- C6 counterexample: the partial-mode clamp does not always terminate
the decode successfully.  With capacity 16, the 47-byte literal run of
`c6src` extends past the output end, so the copy length is clamped to
`oend - op = 16`; but the clamped copy still needs 16 input bytes while
only 15 remain after the length extension, so the decoder returns the
error `-3` (read attempt beyond the end of the input, lines 470–478)
instead of terminating successfully after the clamped copy. -/
theorem lz4_c6_clamp_error :
    LZ4_decompress_generic (partParams c6src 17 16) (fun _ => 0) 20 =
      Res.err (-3) ⟨2, 0, fun _ => 0⟩ ∧
    16 < 15 + readByte c6src 1 :=
  ⟨rfl, by decide⟩

/-- C6 amended: in partial mode, when a literal run would extend past the
output end, the copied length is clamped so the copy ends exactly at
`output_end` and the loop terminates successfully after that copy,
provided the clamped length does not exceed the remaining input (otherwise
the decode fails with MalformedInput); and every successful partial-mode
decode returns exactly the number of bytes written, which is at most
`output_capacity`. -/
theorem lz4_c6_partial_clamp :
    (∀ (src : Nat → Nat) (srcSize cap : Nat) (s : S) (token len : Nat),
      (((cap : Int) - 12 < ((s.op + len : Nat) : Int)) ∨
        ((srcSize : Int) - 8 < (s.ip : Int) + (len : Int))) →
      (cap : Int) < ((s.op + len : Nat) : Int) →
      s.op ≤ cap →
      (s.ip : Int) + ((cap - s.op : Nat) : Int) ≤ (srcSize : Int) →
      (litCopyStep (partParams src srcSize cap) s token len).retOk? = some (cap : Int) ∧
      (litCopyStep (partParams src srcSize cap) s token len).okCursors? =
        some (s.ip + (cap - s.op), cap)) ∧
    (∀ (src : Nat → Nat) (srcSize cap : Nat) (mem0 : Int → Nat) (fuel : Nat) (r : Int) (s' : S),
      LZ4_decompress_generic (partParams src srcSize cap) mem0 fuel = Res.ok r s' →
      r = (s'.op : Int) ∧ r ≤ (cap : Int)) := by
  constructor
  · intro src srcSize cap s token len hb hover hop hin
    have hsum : s.op + (cap - s.op) = cap := by omega
    unfold litCopyStep
    simp only [partParams, Bool.true_and, Bool.not_true, Bool.false_and, Bool.or_false,
      Bool.or_eq_true, decide_eq_true_eq, eq_self_iff_true, true_and, if_true]
    have h1 : (if (cap : Int) < ((s.op + len : Nat) : Int) then cap - s.op else len) =
        cap - s.op := if_pos hover
    have h2 : (if (cap : Int) < ((s.op + len : Nat) : Int) then (cap : Int)
        else ((s.op + len : Nat) : Int)) = (cap : Int) := if_pos hover
    rw [if_pos hb, h1, h2,
      if_neg (show ¬((srcSize : Int) < (s.ip : Int) + ((cap - s.op : Nat) : Int)) from by
        omega),
      if_pos (Or.inl rfl)]
    simp only [Step.retOk?, Step.okCursors?, hsum]
    constructor <;> trivial
  · intro src srcSize cap mem0 fuel r s' h
    have hh := (decompressGeneric_ok (partParams src srcSize cap) rfl mem0 fuel).2.1 r s' h
    have hcap' : s'.op ≤ cap := hh.2.1
    refine ⟨hh.1, ?_⟩
    rw [hh.1]
    exact_mod_cast hcap'

theorem lz4_c6_partial_clamp_witness :
    ((litCopyStep (partParams c6wSrc 10 3) ⟨0, 0, fun _ => 0⟩ 0x50 5).retOk? = some 3 ∧
     (litCopyStep (partParams c6wSrc 10 3) ⟨0, 0, fun _ => 0⟩ 0x50 5).okCursors? =
       some (3, 3)) ∧
    ((3 : Int) = (c6wS.op : Int) ∧ (3 : Int) ≤ 3) :=
  ⟨lz4_c6_partial_clamp.1 c6wSrc 10 3 ⟨0, 0, fun _ => 0⟩ 0x50 5 (Or.inl (by decide))
      (by decide) (by decide) (by decide),
   lz4_c6_partial_clamp.2 c6wSrc 6 3 (fun _ => 0) 20 3 c6wS rfl⟩

/-- A forward byte copy whose source trails the destination extends a
constant region: if `[lo, d)` holds only the value `v` and the source
cursor starts inside it, every byte of `[lo, d + n)` holds `v`
afterwards. -/
theorem copyOut_const_ext (v : Nat) :
    ∀ (n : Nat) (mem : Int → Nat) (sc d lo : Int), lo ≤ sc → sc < d →
      (∀ j, lo ≤ j → j < d → mem j = v) →
      ∀ j, lo ≤ j → j < d + (n : Int) → copyOut n mem sc d j = v := by
  intro n
  induction n with
  | zero =>
    intro mem sc d lo hlo hsd hall j hj1 hj2
    exact hall j hj1 (by push_cast at hj2; omega)
  | succ k ih =>
    intro mem sc d lo hlo hsd hall j hj1 hj2
    show copyOut k (wr mem d (mem sc)) (sc + 1) (d + 1) j = v
    rcases lt_or_le j (d + 1) with hj | hj
    · rw [copyOut_outside _ _ _ _ _ (Or.inl hj)]
      unfold wr
      split
      · exact hall sc hlo hsd
      · rename_i hne
        exact hall j hj1 (by omega)
    · refine ih (wr mem d (mem sc)) (sc + 1) (d + 1) lo (by omega) (by omega) ?_ j hj1
        (by push_cast at hj2 ⊢; omega)
      intro j2 hj2a hj2b
      unfold wr
      split
      · exact hall sc hlo hsd
      · rename_i hne
        exact hall j2 hj2a (by omega)

/-- Writing a constant pattern yields the constant on the written range. -/
theorem writePat_const (pat : Nat → Nat) (v : Nat) (hpat : ∀ j, pat j = v) :
    ∀ (n : Nat) (mem : Int → Nat) (k : Nat) (d j : Int), d ≤ j → j < d + (n : Int) →
      writePat pat n mem k d j = v := by
  intro n
  induction n with
  | zero =>
    intro mem k d j h1 h2
    exact absurd h1 (by push_cast at h2; omega)
  | succ c ih =>
    intro mem k d j h1 h2
    show writePat pat c (wr mem d (pat k)) (k + 1) (d + 1) j = v
    rcases lt_or_le j (d + 1) with hj | hj
    · rw [writePat_outside _ _ _ _ _ _ (Or.inl hj)]
      unfold wr
      rw [if_pos (by omega)]
      exact hpat k
    · exact ih _ _ _ _ hj (by push_cast at h2 ⊢; omega)

/-- C7, fast-loop half: `LZ4_memcpy_using_offset` with offset 1 broadcasts
the byte before the destination over the whole copied range. -/
theorem lz4_memcpy_offset_one (mem : Int → Nat) (m d e : Int) (i : Nat)
    (_hm : m + 1 = d) (hi : d + (i : Int) < e) :
    LZ4_memcpy_using_offset mem m d e 1 (d + (i : Int)) = mem m := by
  unfold LZ4_memcpy_using_offset
  rw [if_pos (Or.inl rfl)]
  refine writePat_const _ (mem m) ?_ _ _ _ _ _ (by omega) ?_
  · intro j
    simp [patFor, Nat.mod_one]
  · have hd : d < e := by omega
    have := le_wildChunks d e hd
    omega

/-- C7, safe-loop half: a match copy with offset 1 (match cursor one byte
behind the output cursor) that continues the decode writes the byte
`output[op-1]` into every one of its `length` target bytes. -/
theorem matchCopy_offset_one (p : Params) (s : S) (len : Nat) (m : Int)
    (hP : p.stopEarly = false) (hm : m = (s.op : Int) - 1) :
    (matchCopyStep p s len 1 m).isNextB = true →
    ∀ i : Nat, i < len →
      (matchCopyStep p s len 1 m).memOf ((s.op : Int) + (i : Int)) = s.mem ((s.op : Int) - 1) := by
  subst hm
  unfold matchCopyStep
  simp only [hP, Bool.false_eq_true, false_and, if_false]
  rw [if_pos (by norm_num : (1 : Nat) < 8)]
  simp only [inc32table, dec64table, Nat.cast_one, sub_zero, sub_add_cancel]
  push_cast
  have hA1 : ∀ j : Int, (s.op : Int) - 1 ≤ j → j < (s.op : Int) + 4 →
      copyOut 4 s.mem ((s.op : Int) - 1) (s.op : Int) j = s.mem ((s.op : Int) - 1) := by
    intro j h1 h2
    refine copyOut_const_ext _ 4 s.mem _ _ ((s.op : Int) - 1) le_rfl (by omega) ?_ j h1
      (by push_cast; omega)
    intro j2 h21 h22
    have hj2 : j2 = (s.op : Int) - 1 := by omega
    rw [hj2]
  have hA2 : ∀ j : Int, (s.op : Int) - 1 ≤ j → j < (s.op : Int) + 8 →
      copyOut 4 (copyOut 4 s.mem ((s.op : Int) - 1) (s.op : Int)) (s.op : Int)
        ((s.op : Int) + 4) j = s.mem ((s.op : Int) - 1) := by
    intro j h1 h2
    refine copyOut_const_ext _ 4 _ _ _ ((s.op : Int) - 1) (by omega) (by omega) ?_ j h1
      (by push_cast; omega)
    intro j2 h21 h22
    exact hA1 j2 h21 (by omega)
  split
  · split
    · -- the error leaf cannot continue
      intro hn
      exact absurd hn (by simp [errAt, Step.isNextB])
    · rename_i hfar hnear5
      intro _ i hi
      simp only [Step.memOf]
      split
      · -- wildcopy up to oCopyLimit, then the byte loop
        rename_i hlim
        have hwc := le_wildChunks ((s.op : Int) + 8) ((p.cap : Int) - 7) (by omega)
        have hA3 : ∀ j : Int, (s.op : Int) - 1 ≤ j →
            j < ((s.op : Int) + 8) +
              ((8 * wildChunks ((s.op : Int) + 8) ((p.cap : Int) - 7) : Nat) : Int) →
            copyOut (8 * wildChunks ((s.op : Int) + 8) ((p.cap : Int) - 7))
              (copyOut 4 (copyOut 4 s.mem ((s.op : Int) - 1) (s.op : Int)) (s.op : Int)
                ((s.op : Int) + 4)) (s.op : Int) ((s.op : Int) + 8) j =
              s.mem ((s.op : Int) - 1) := by
          intro j h1 h2
          refine copyOut_const_ext _ _ _ _ _ ((s.op : Int) - 1) (by omega) (by omega) ?_ j h1 h2
          intro j2 a b
          exact hA2 j2 a (by omega)
        refine copyOut_const_ext _ _ _ _ _ ((s.op : Int) - 1) (by omega) (by omega) ?_ _
          (by omega) (by omega)
        intro j2 a b
        exact hA3 j2 a (by omega)
      · -- byte loop only
        rename_i hlim
        refine copyOut_const_ext _ _ _ _ _ ((s.op : Int) - 1) (by omega) (by omega) ?_ _
          (by omega) (by omega)
        intro j2 a b
        exact hA2 j2 a (by omega)
  · rename_i hfar
    intro _ i hi
    simp only [Step.memOf]
    have hA3 : ∀ j : Int, (s.op : Int) - 1 ≤ j → j < (s.op : Int) + 16 →
        copyOut 8 (copyOut 4 (copyOut 4 s.mem ((s.op : Int) - 1) (s.op : Int)) (s.op : Int)
          ((s.op : Int) + 4)) (s.op : Int) ((s.op : Int) + 8) j =
        s.mem ((s.op : Int) - 1) := by
      intro j h1 h2
      refine copyOut_const_ext _ 8 _ _ _ ((s.op : Int) - 1) (by omega) (by omega) ?_ j h1
        (by push_cast; omega)
      intro j2 a b
      exact hA2 j2 a (by omega)
    split
    · -- wildcopy tail
      rename_i h16
      have hwc := le_wildChunks ((s.op : Int) + 8 + 8) ((s.op : Int) + (len : Int)) (by omega)
      refine copyOut_const_ext _ _ _ _ _ ((s.op : Int) - 1) (by omega) (by omega) ?_ _
        (by omega) (by omega)
      intro j2 a b
      exact hA3 j2 a (by omega)
    · rename_i h16
      exact hA3 _ (by omega) (by omega)

/-- C7: run-length expansion of an offset-1 match.  First half: the
fast-loop helper `LZ4_memcpy_using_offset` with offset 1 fills its whole
range (and the overshoot) with the byte just before the destination.
Second half: the safe-loop match copy (`safe_match_copy`, overlap fix-up
plus wildcopy tail, in full mode) with offset 1 writes
`output[op_start - 1]` into all `N = length` bytes
`output[op_start .. op_start + N - 1]` whenever it continues the decode
(the `last-LASTLITERALS` error path aborts the copy instead). -/
theorem lz4_offset_one_rle :
    (∀ (mem : Int → Nat) (m d e : Int) (i : Nat), m + 1 = d → d + (i : Int) < e →
      LZ4_memcpy_using_offset mem m d e 1 (d + (i : Int)) = mem m) ∧
    (∀ (p : Params) (s : S) (len : Nat) (m : Int), p.stopEarly = false →
      m = (s.op : Int) - 1 → (matchCopyStep p s len 1 m).isNextB = true →
      ∀ i : Nat, i < len →
        (matchCopyStep p s len 1 m).memOf ((s.op : Int) + (i : Int)) =
          s.mem ((s.op : Int) - 1)) :=
  ⟨fun mem m d e i hm hi => lz4_memcpy_offset_one mem m d e i hm hi,
   fun p s len m hP hm => matchCopy_offset_one p s len m hP hm⟩

theorem lz4_offset_one_rle_witness :
    LZ4_memcpy_using_offset (fun j => if j = 4 then 9 else 0) 4 5 10 1
      ((5 : Int) + ((2 : Nat) : Int)) = 9 ∧
    (matchCopyStep (safeParams (fun _ => 0) 20 30) ⟨0, 5, fun j => if j = 4 then 9 else 0⟩
      4 1 4).memOf (((5 : Nat) : Int) + ((2 : Nat) : Int)) = 9 :=
  ⟨lz4_offset_one_rle.1 (fun j => if j = 4 then 9 else 0) 4 5 10 2 (by decide) (by decide),
   lz4_offset_one_rle.2 (safeParams (fun _ => 0) 20 30)
     ⟨0, 5, fun j => if j = 4 then 9 else 0⟩ 4 4 rfl (by decide) rfl 2 (by decide)⟩

/-- C8 counterexample: on `c8src` with capacity 64 the code's shortcut
condition holds (literal seed 1, `ip = 1 < shortiend = 2`,
`op = 0 ≤ shortoend = 32`) and the shortcut is taken — the step from the
safe-loop head lands on the `_copy_match` continuation (tag 3, reachable in
one step only through the shortcut, here because offset 5 < 8) — yet the
claimed condition `ip + 16 ≤ shortiend ∧ op + 18 ≤ shortoend` is false:
its margins 16 and 18 are already built into `shortiend`/`shortoend`. -/
theorem lz4_c8_entry_condition :
    shortcutCond (safeParams c8src 18 64) 1 1 0 = true ∧
    c8ClaimCond (safeParams c8src 18 64) 1 1 0 = false ∧
    (stepPhase (safeParams c8src 18 64) 5 Phase.safeTop ⟨0, 0, fun _ => 0⟩).tag = 3 :=
  ⟨rfl, rfl, rfl⟩

/-- In safe mode the shortcut condition is: literal seed below 15, input
cursor (after the token) more than 16 bytes from the input end, output
cursor at least 32 bytes from the output end. -/
theorem shortcutCond_safe_iff (p : Params) (ll ip1 op : Nat) (hE : p.endOnInput = true) :
    shortcutCond p ll ip1 op = true ↔
      (ll ≠ 15 ∧ (ip1 : Int) + 16 < (p.srcSize : Int) ∧ (op : Int) + 32 ≤ (p.cap : Int)) := by
  simp only [shortcutCond, shortiend, shortoend, hE, if_true, Bool.not_true, Bool.false_or,
    Bool.and_eq_true, decide_eq_true_eq]
  omega

/-- When the shortcut condition holds, the safe-loop head dispatches to the
shortcut body. -/
theorem safeTop_shortcut_dispatch (p : Params) (fuel : Nat) (s : S)
    (h : shortcutCond p (readByte p.src s.ip / 16) (s.ip + 1) s.op = true) :
    stepPhase p fuel Phase.safeTop s =
      shortcutStep p s (readByte p.src s.ip) (readByte p.src s.ip / 16) := by
  show safeTopStep p fuel s = _
  unfold safeTopStep
  simp only [h, if_true]

/-- The shortcut body in safe mode: it always copies 16 literal bytes,
advances the cursors by the literal seed (plus the token and offset bytes
on the input side); when the inline condition holds it additionally
performs the 18-byte match copy, adds `ML + 4` to the output cursor and
returns to the loop head; otherwise it hands over to `_copy_match`
(tag 3) with the memory only changed by the literal copy. -/
theorem shortcutStep_spec (p : Params) (s : S) (token ll : Nat) (hE : p.endOnInput = true) :
    (shortcutStep p s token ll).cursorsOf = some (s.ip + 1 + ll + 2,
        if shortcutInline p s token ll then s.op + ll + token % 16 + 4 else s.op + ll) ∧
    (shortcutStep p s token ll).memOf = (if shortcutInline p s token ll
        then copyOut 18 (copyLit p.src 16 s.mem (s.ip + 1) (s.op : Int))
          (((s.op + ll : Nat) : Int) - (readLE16 p.src (s.ip + 1 + ll) : Int))
          ((s.op + ll : Nat) : Int)
        else copyLit p.src 16 s.mem (s.ip + 1) (s.op : Int)) ∧
    ((shortcutStep p s token ll).tag = 3 ↔ ¬ shortcutInline p s token ll) := by
  by_cases hc : shortcutInline p s token ll
  · have hc' : token % 16 ≠ 15 ∧ 8 ≤ readLE16 p.src (s.ip + 1 + ll) ∧
        (p.dict64k = true ∨ p.lowLimit ≤ ((s.op + ll : Nat) : Int) -
          (readLE16 p.src (s.ip + 1 + ll) : Int)) := hc
    have hstep : shortcutStep p s token ll = Step.next Phase.safeTop
        ⟨s.ip + 1 + ll + 2, s.op + ll + token % 16 + 4,
         copyOut 18 (copyLit p.src 16 s.mem (s.ip + 1) (s.op : Int))
           (((s.op + ll : Nat) : Int) - (readLE16 p.src (s.ip + 1 + ll) : Int))
           ((s.op + ll : Nat) : Int)⟩ := by
      unfold shortcutStep
      simp only [hE, if_true]
      rw [if_pos hc']
    rw [hstep, if_pos hc, if_pos hc]
    exact ⟨rfl, rfl, iff_of_false (by simp [Step.tag]) (not_not_intro hc)⟩
  · have hc' : ¬(token % 16 ≠ 15 ∧ 8 ≤ readLE16 p.src (s.ip + 1 + ll) ∧
        (p.dict64k = true ∨ p.lowLimit ≤ ((s.op + ll : Nat) : Int) -
          (readLE16 p.src (s.ip + 1 + ll) : Int))) := hc
    have hstep : shortcutStep p s token ll = Step.next
        (Phase.copyMatch (token % 16) (readLE16 p.src (s.ip + 1 + ll))
          (((s.op + ll : Nat) : Int) - (readLE16 p.src (s.ip + 1 + ll) : Int)))
        ⟨s.ip + 1 + ll + 2, s.op + ll, copyLit p.src 16 s.mem (s.ip + 1) (s.op : Int)⟩ := by
      unfold shortcutStep
      simp only [hE, if_true]
      rw [if_neg hc']
    rw [hstep, if_neg hc, if_neg hc]
    exact ⟨rfl, rfl, iff_of_true rfl hc⟩

/-- Without a 64 KiB prefix, the inline condition fails exactly for the
claimed fallback reasons. -/
theorem shortcutInline_noDict_iff (p : Params) (s : S) (token ll : Nat)
    (hD : p.dict64k = false) :
    ¬ shortcutInline p s token ll ↔
      (token % 16 = 15 ∨ readLE16 p.src (s.ip + 1 + ll) < 8 ∨
        ((s.op + ll : Nat) : Int) - (readLE16 p.src (s.ip + 1 + ll) : Int) < p.lowLimit) := by
  simp only [shortcutInline, hD, Bool.false_eq_true, false_or]
  omega

/-- C8 (amended): in safe mode the shortcut is entered exactly when the
literal seed is below 15, `ip + 16 < input_end` (i.e. `ip < shortiend`, the
16-byte margin already being folded into `shortiend`) and
`op + 32 ≤ output_end` (i.e. `op ≤ shortoend`); the body copies 16 literal
bytes unconditionally, advances by the literal seed, and completes the
match inline, falling back to `_copy_match` exactly when `ML = 15`, the
offset is below 8, or the match pointer is below `low_prefix` (the last,
without a 64 KiB prefix dictionary). -/
theorem lz4_c8_shortcut :
    (∀ (p : Params) (ll ip1 op : Nat), p.endOnInput = true →
      (shortcutCond p ll ip1 op = true ↔
        (ll ≠ 15 ∧ (ip1 : Int) + 16 < (p.srcSize : Int) ∧ (op : Int) + 32 ≤ (p.cap : Int)))) ∧
    (∀ (p : Params) (fuel : Nat) (s : S),
      shortcutCond p (readByte p.src s.ip / 16) (s.ip + 1) s.op = true →
      stepPhase p fuel Phase.safeTop s =
        shortcutStep p s (readByte p.src s.ip) (readByte p.src s.ip / 16)) ∧
    (∀ (p : Params) (s : S) (token ll : Nat), p.endOnInput = true →
      (shortcutStep p s token ll).cursorsOf = some (s.ip + 1 + ll + 2,
          if shortcutInline p s token ll then s.op + ll + token % 16 + 4 else s.op + ll) ∧
      (shortcutStep p s token ll).memOf = (if shortcutInline p s token ll
          then copyOut 18 (copyLit p.src 16 s.mem (s.ip + 1) (s.op : Int))
            (((s.op + ll : Nat) : Int) - (readLE16 p.src (s.ip + 1 + ll) : Int))
            ((s.op + ll : Nat) : Int)
          else copyLit p.src 16 s.mem (s.ip + 1) (s.op : Int)) ∧
      ((shortcutStep p s token ll).tag = 3 ↔ ¬ shortcutInline p s token ll)) ∧
    (∀ (p : Params) (s : S) (token ll : Nat), p.dict64k = false →
      (¬ shortcutInline p s token ll ↔
        (token % 16 = 15 ∨ readLE16 p.src (s.ip + 1 + ll) < 8 ∨
          ((s.op + ll : Nat) : Int) - (readLE16 p.src (s.ip + 1 + ll) : Int) < p.lowLimit))) :=
  ⟨shortcutCond_safe_iff, safeTop_shortcut_dispatch, shortcutStep_spec, shortcutInline_noDict_iff⟩

theorem lz4_c8_shortcut_witness :
    shortcutCond (safeParams c8src 18 64) 1 1 0 = true ∧
    stepPhase (safeParams c8src 18 64) 5 Phase.safeTop ⟨0, 0, fun _ => 0⟩ =
      shortcutStep (safeParams c8src 18 64) ⟨0, 0, fun _ => 0⟩
        (readByte (safeParams c8src 18 64).src 0)
        (readByte (safeParams c8src 18 64).src 0 / 16) ∧
    (shortcutStep (safeParams c8src 18 64) ⟨0, 0, fun _ => 0⟩ 17 1).tag = 3 ∧
    ¬ shortcutInline (safeParams c8src 18 64) ⟨0, 0, fun _ => 0⟩ 17 1 :=
  ⟨(lz4_c8_shortcut.1 (safeParams c8src 18 64) 1 1 0 rfl).mpr (by decide),
   lz4_c8_shortcut.2.1 (safeParams c8src 18 64) 5 ⟨0, 0, fun _ => 0⟩ rfl,
   ((lz4_c8_shortcut.2.2.1 (safeParams c8src 18 64) ⟨0, 0, fun _ => 0⟩ 17 1 rfl).2.2).mpr
     (fun h => absurd h.2.1 (by decide)),
   (lz4_c8_shortcut.2.2.2 (safeParams c8src 18 64) ⟨0, 0, fun _ => 0⟩ 17 1 rfl).mpr
     (Or.inr (Or.inl (by decide)))⟩

end LZ4
